import Mathlib

set_option maxHeartbeats 1000000

attribute [local semireducible] Rat.add Rat.sub Rat.mul Rat.inv

/-!
Shallow embedding of the SORN arithmetic library (`src/sorn.rs`,
`src/sornset.rs`, `src/sorntable_gen.rs`).

Endpoints are modelled as exact extended rationals carrying the IEEE-754
special values (`nan` and both infinities) that the source's `f64`
arithmetic produces on the values the library manipulates; binary `f64`
rounding and the sign of zero are outside the model.  Bit vectors (`u128`
in the source) are modelled as `ℕ`; the `set_bits` range check
`bits.leading_zeros() < 128 - len` is equivalent, for `len ≤ 128`, to
`bits ≥ 2 ^ len`, which is how it is rendered here.  The `FxHashMap` memo
tables are modelled as association lists where the most recent insertion
wins, matching `HashMap::insert`/`get` overwrite semantics.
-/

/-- Extended rational: the subset of `f64` values relevant to the source
(`NaN`, the two infinities, and exact finite values). -/
inductive XR where
  | nan : XR
  | negInf : XR
  | posInf : XR
  | fin : ℚ → XR
deriving DecidableEq

namespace XR

/-- The `f64` operator `<`: false whenever either side is NaN. -/
def lt : XR → XR → Bool
  | nan, _ => false
  | _, nan => false
  | negInf, negInf => false
  | negInf, _ => true
  | _, negInf => false
  | posInf, _ => false
  | fin _, posInf => true
  | fin p, fin q => decide (p < q)

/-- The `f64` operator `<=`: false whenever either side is NaN. -/
def le : XR → XR → Bool
  | nan, _ => false
  | _, nan => false
  | negInf, _ => true
  | _, negInf => false
  | _, posInf => true
  | posInf, _ => false
  | fin p, fin q => decide (p ≤ q)

/-- The `f64` operator `==`: `NaN == NaN` is false. -/
def beq : XR → XR → Bool
  | negInf, negInf => true
  | posInf, posInf => true
  | fin p, fin q => decide (p = q)
  | _, _ => false

/-- IEEE `f64` addition on the modelled values: `∞ + (−∞) = NaN`. -/
def add : XR → XR → XR
  | nan, _ => nan
  | _, nan => nan
  | negInf, posInf => nan
  | posInf, negInf => nan
  | negInf, _ => negInf
  | _, negInf => negInf
  | posInf, _ => posInf
  | _, posInf => posInf
  | fin p, fin q => fin (p + q)

/-- IEEE `f64` negation. -/
def neg : XR → XR
  | nan => nan
  | negInf => posInf
  | posInf => negInf
  | fin q => fin (-q)

/-- IEEE `f64` subtraction (identical to adding the negation). -/
def sub (x y : XR) : XR := add x (neg y)

/-- IEEE `f64` multiplication: `0 × ∞ = NaN`, signs propagate. -/
def mul : XR → XR → XR
  | nan, _ => nan
  | _, nan => nan
  | posInf, posInf => posInf
  | posInf, negInf => negInf
  | negInf, posInf => negInf
  | negInf, negInf => posInf
  | posInf, fin q => if q = 0 then nan else if 0 < q then posInf else negInf
  | fin q, posInf => if q = 0 then nan else if 0 < q then posInf else negInf
  | negInf, fin q => if q = 0 then nan else if 0 < q then negInf else posInf
  | fin q, negInf => if q = 0 then nan else if 0 < q then negInf else posInf
  | fin p, fin q => fin (p * q)

/-- IEEE `f64` division: `∞ / ∞ = NaN`, `q / 0 = ±∞` (the model's zero is
`+0`), `0 / 0 = NaN`. -/
def div : XR → XR → XR
  | nan, _ => nan
  | _, nan => nan
  | posInf, posInf => nan
  | posInf, negInf => nan
  | negInf, posInf => nan
  | negInf, negInf => nan
  | posInf, fin q => if 0 ≤ q then posInf else negInf
  | negInf, fin q => if 0 ≤ q then negInf else posInf
  | fin _, posInf => fin 0
  | fin _, negInf => fin 0
  | fin p, fin q =>
      if q = 0 then (if p = 0 then nan else if 0 < p then posInf else negInf)
      else fin (p / q)

/-- Rust `f64::powi`: `x.powi(0) = 1` for every `x` (including NaN). -/
def powi (x : XR) (n : ℤ) : XR :=
  if n = 0 then fin 1
  else
    match x with
    | nan => nan
    | posInf => if 0 < n then posInf else fin 0
    | negInf => if 0 < n then (if n % 2 = 0 then posInf else negInf) else fin 0
    | fin q =>
        if 0 < n then fin (q ^ n.toNat)
        else if q = 0 then posInf
        else fin (q ^ n)

/-- Rust `f64::min`: ignores NaN (returns the other operand). -/
def fmin : XR → XR → XR
  | nan, y => y
  | x, nan => x
  | x, y => if lt x y then x else y

/-- Rust `f64::max`: ignores NaN (returns the other operand). -/
def fmax : XR → XR → XR
  | nan, y => y
  | x, nan => x
  | x, y => if lt y x then x else y

/-- Rust `f64::abs`. -/
def abs : XR → XR
  | nan => nan
  | negInf => posInf
  | posInf => posInf
  | fin q => fin |q|

end XR

/-- The value-kind sum type `SornValue` from `src/sornset.rs`. -/
inductive SornValue where
  | Empty : SornValue
  | Open : XR × XR → SornValue
  | OpenLeft : XR × XR → SornValue
  | OpenRight : XR × XR → SornValue
  | Exact : XR → SornValue
  | PlusMinusInf : SornValue
deriving DecidableEq

namespace SornValue

/-- `SornValue::get`: the payload of an `Exact`, `None` otherwise. -/
def get : SornValue → Option XR
  | Exact v => some v
  | _ => none

/-- `SornValue::min` (`Empty` gives `0.0`, `PlusMinusInf` gives `−∞`). -/
def min : SornValue → XR
  | Empty => XR.fin 0
  | Open p => p.1
  | OpenLeft p => p.1
  | OpenRight p => p.1
  | Exact v => v
  | PlusMinusInf => XR.negInf

/-- `SornValue::max` (`Empty` gives `0.0`, `PlusMinusInf` gives `+∞`). -/
def max : SornValue → XR
  | Empty => XR.fin 0
  | Open p => p.2
  | OpenLeft p => p.2
  | OpenRight p => p.2
  | Exact v => v
  | PlusMinusInf => XR.posInf

def is_exact : SornValue → Bool
  | Exact _ => true
  | _ => false

def is_open : SornValue → Bool
  | Open _ => true
  | _ => false

def is_leftopen : SornValue → Bool
  | OpenLeft _ => true
  | _ => false

def is_rightopen : SornValue → Bool
  | OpenRight _ => true
  | _ => false

def is_interval (v : SornValue) : Bool :=
  v.is_open || v.is_leftopen || v.is_rightopen

def is_pminf : SornValue → Bool
  | PlusMinusInf => true
  | _ => false

end SornValue

/-- The `PartialEq` implementation for `SornValue`: payloads compared with
`f64` equality (so NaN payloads are never equal), other variants by
discriminant. -/
def svBeq : SornValue → SornValue → Bool
  | SornValue.Empty, SornValue.Empty => true
  | SornValue.Open p, SornValue.Open q => XR.beq p.1 q.1 && XR.beq p.2 q.2
  | SornValue.OpenLeft p, SornValue.OpenLeft q => XR.beq p.1 q.1 && XR.beq p.2 q.2
  | SornValue.OpenRight p, SornValue.OpenRight q => XR.beq p.1 q.1 && XR.beq p.2 q.2
  | SornValue.Exact p, SornValue.Exact q => XR.beq p q
  | SornValue.PlusMinusInf, SornValue.PlusMinusInf => true
  | _, _ => false

/-- Element-wise `PartialEq` on `Vec<SornValue>`. -/
def listBeqSV : List SornValue → List SornValue → Bool
  | [], [] => true
  | x :: xs, y :: ys => svBeq x y && listBeqSV xs ys
  | _, _ => false

/-- The partition descriptor `SornSet` from `src/sornset.rs`. -/
structure SornSet where
  precomputed_pow : List (ℕ × ℕ)
  precomputed_add : List ((ℕ × ℕ) × ℕ)
  precomputed_sub : List ((ℕ × ℕ) × ℕ)
  precomputed_mul : List ((ℕ × ℕ) × ℕ)
  precomputed_div : List ((ℕ × ℕ) × ℕ)
  sets : List SornValue
  contains_inf : Bool
  one_bit : ℕ
deriving DecidableEq

namespace SornSet

/-- `SornSet::default`. -/
def default : SornSet :=
  { precomputed_pow := [], precomputed_add := [], precomputed_sub := []
    precomputed_mul := [], precomputed_div := [], sets := []
    contains_inf := false, one_bit := 0 }

/-- `SornSet::push`. -/
def push (st : SornSet) (item : SornValue) : SornSet :=
  { st with sets := st.sets ++ [item] }

/-- `SornSet::len`. -/
def len (st : SornSet) : ℕ := st.sets.length

end SornSet

/-- The `PartialEq` implementation for `SornSet` (and, via `Rc<RefCell<_>>`,
the comparison the source performs between two partition handles): only
`sets` and `contains_inf` take part; memo tables and `one_bit` are ignored. -/
def sornSetEq (s1 s2 : SornSet) : Bool :=
  listBeqSV s1.sets s2.sets && (s1.contains_inf == s2.contains_inf)

/-- Association-list lookup for the memo tables (most recent insertion
first, matching `HashMap::insert` overwrite followed by `get`). -/
def alookup (k : ℕ × ℕ) : List ((ℕ × ℕ) × ℕ) → Option ℕ
  | [] => none
  | (k1, v) :: rest => if k = k1 then some v else alookup k rest

/-- Lookup in the pow memo table (keyed by the input mask only). -/
def plookup (k : ℕ) : List (ℕ × ℕ) → Option ℕ
  | [] => none
  | (k1, v) :: rest => if k = k1 then some v else plookup k rest

/-- The four binary-operation tags accepted by `checked_op` (the source
passes them as `&str`; any other string falls into dead `(0.0, 0.0)`
arms / the table generator's panic, so the tag is modelled as a closed
enum). -/
inductive Op where
  | add : Op
  | sub : Op
  | mul : Op
  | div : Op
deriving DecidableEq

/-- Read the memo table of a given operation. -/
def lookupMemo (st : SornSet) (op : Op) (k : ℕ × ℕ) : Option ℕ :=
  match op with
  | Op.add => alookup k st.precomputed_add
  | Op.sub => alookup k st.precomputed_sub
  | Op.mul => alookup k st.precomputed_mul
  | Op.div => alookup k st.precomputed_div

/-- Insert into the memo table of a given operation. -/
def insertMemo (st : SornSet) (op : Op) (k : ℕ × ℕ) (v : ℕ) : SornSet :=
  match op with
  | Op.add => { st with precomputed_add := (k, v) :: st.precomputed_add }
  | Op.sub => { st with precomputed_sub := (k, v) :: st.precomputed_sub }
  | Op.mul => { st with precomputed_mul := (k, v) :: st.precomputed_mul }
  | Op.div => { st with precomputed_div := (k, v) :: st.precomputed_div }

/-- The endpoint combinator of `checked_op` for each tag. -/
def opFun : Op → XR → XR → XR
  | Op.add => XR.add
  | Op.sub => XR.sub
  | Op.mul => XR.mul
  | Op.div => XR.div

namespace Sorn

/-- Width of the mask word (`SornBitsType = u128`). -/
def sorn_max_bits : ℕ := 128

/-- The all-ones `u128` pattern `!0`. -/
def allOnes : ℕ := 2 ^ sorn_max_bits - 1

/-- `Sorn::set_bits` success condition and result: for `len ≤ 128`,
`bits.leading_zeros() < 128 - len` is exactly `bits ≥ 2 ^ len`; on failure
the carrier's bits are unchanged. -/
def trySetBits (len cur new : ℕ) : ℕ × Bool :=
  if new < 2 ^ len then (new, true) else (cur, false)

/-- The bits after a `set_bits` call whose `Result` is discarded. -/
def setBitsN (len cur new : ℕ) : ℕ := (trySetBits len cur new).1

/-- The overlap disjunction of `Sorn::sorn_to_bits` (lines 177-184 of
`src/sorn.rs`), one `value`/`item` pair at a time; `get().unwrap()` is
only reached under the corresponding `is_exact` guard. -/
def overlapCond (value item : SornValue) : Bool :=
  (value.is_exact && item.is_exact)
    && XR.beq ((value.get).getD XR.nan) ((item.get).getD XR.nan) ||
  (value.is_interval && item.is_interval)
    && (XR.lt value.min item.max && XR.lt item.min value.max) ||
  (value.is_open && item.is_exact)
    && (XR.lt value.min ((item.get).getD XR.nan)
        && XR.lt ((item.get).getD XR.nan) value.max) ||
  (value.is_exact && item.is_open)
    && (XR.lt item.min ((value.get).getD XR.nan)
        && XR.lt ((value.get).getD XR.nan) item.max) ||
  (value.is_leftopen && item.is_exact)
    && (XR.lt value.min ((item.get).getD XR.nan)
        && XR.le ((item.get).getD XR.nan) value.max) ||
  (value.is_exact && item.is_leftopen)
    && (XR.lt item.min ((value.get).getD XR.nan)
        && XR.le ((value.get).getD XR.nan) item.max) ||
  (value.is_rightopen && item.is_exact)
    && (XR.le value.min ((item.get).getD XR.nan)
        && XR.lt ((item.get).getD XR.nan) value.max) ||
  (value.is_exact && item.is_rightopen)
    && (XR.le item.min ((value.get).getD XR.nan)
        && XR.lt ((value.get).getD XR.nan) item.max)

/-- Loop body of `Sorn::sorn_to_bits`: the overlap disjunction plus the
`PlusMinusInf` bit-0 clause, accumulated by `|=` over the enumerated sets
(the accumulator index is the first argument). -/
def stbAux (cinf : Bool) (value : SornValue) : ℕ → List SornValue → ℕ
  | _, [] => 0
  | i, item :: rest =>
      (if overlapCond value item then 1 <<< i
       else if item.is_pminf && value.is_pminf && cinf then 1 <<< 0
       else 0) ||| stbAux cinf value (i + 1) rest

/-- `Sorn::sorn_to_bits` (the classifier). -/
def sorn_to_bits (st : SornSet) (value : SornValue) : ℕ :=
  stbAux st.contains_inf value 0 st.sets

/-- Loop body of `Sorn::get_ranges`: walk the sets while shifting the
mask right (the early `break` on a zero mask does not change the result). -/
def grAux : ℕ → List SornValue → List SornValue
  | _, [] => []
  | bits, x :: xs =>
      if bits % 2 = 1 then x :: grAux (bits / 2) xs else grAux (bits / 2) xs

/-- `Sorn::get_ranges`: the partition elements whose bits are set. -/
def get_ranges (st : SornSet) (bits : ℕ) : List SornValue :=
  grAux bits st.sets

/-- Loop body of `Sorn::contains` (index is the first `ℕ` argument). -/
def containsAux (bits : ℕ) (value : SornValue) : ℕ → List SornValue → Bool
  | _, [] => false
  | i, item :: rest =>
      (svBeq value item && bits.testBit i) || containsAux bits value (i + 1) rest

/-- `Sorn::contains`: structural membership of a value at a set bit. -/
def contains (st : SornSet) (bits : ℕ) (value : SornValue) : Bool :=
  containsAux bits value 0 st.sets

end Sorn

namespace SornSet

/-- `SornSet::new`: the uniform grid constructor. `(end − start) / step`
is floored and cast to `u32` (saturating at zero for negative values,
rendered by `Int.toNat`). -/
def new (start e step : ℚ) (has_inf : Bool) : SornSet :=
  let num_sets : ℕ := (⌊(e - start) / step⌋).toNat
  let s0 : SornSet :=
    if has_inf then
      push { SornSet.default with contains_inf := true }
        (SornValue.Open (XR.negInf, XR.fin start))
    else SornSet.default
  let s1 : SornSet :=
    (List.range num_sets).foldl
      (fun acc (i : ℕ) =>
        push (push acc (SornValue.Exact (XR.fin ((i : ℚ) * step + start))))
          (SornValue.Open (XR.fin ((i : ℚ) * step + start),
            XR.fin (((i : ℚ) * step + start) + step))))
      s0
  let s2 : SornSet := push s1 (SornValue.Exact (XR.fin e))
  let s3 : SornSet :=
    if has_inf then push s2 (SornValue.Open (XR.fin e, XR.posInf)) else s2
  { s3 with one_bit := Sorn.sorn_to_bits s3 (SornValue.Exact (XR.fin 1)) }

end SornSet

/-- `SornErrors` from `src/sorn.rs`. -/
inductive SornErrors where
  | NotInRange : SornErrors
  | DifferentSornSets : SornErrors
deriving DecidableEq

/-- Bitwise-or accumulation of a list of masks (the `result |= …` loops). -/
def orFold : List ℕ → ℕ
  | [] => 0
  | x :: xs => x ||| orFold xs

namespace Sorn

/-- The four endpoint combinations of `checked_op` and their min/max, using
`f64::min` / `f64::max` (NaN-ignoring). -/
def op_bounds (op : Op) (s1 s2 : SornValue) : XR × XR :=
  (XR.fmin (XR.fmin (opFun op s1.min s2.min) (opFun op s1.min s2.max))
    (XR.fmin (opFun op s1.max s2.min) (opFun op s1.max s2.max)),
   XR.fmax (XR.fmax (opFun op s1.min s2.min) (opFun op s1.min s2.max))
    (XR.fmax (opFun op s1.max s2.min) (opFun op s1.max s2.max)))

/-- Kind propagation of `checked_op` for one `(s1, s2)` pair, given the
already-computed endpoint bounds `(a, b)`: which output value (if any)
gets classified and or-ed into the result. -/
def cellPick (op : Op) (a b : XR) (s1 s2 : SornValue) : Option SornValue :=
  if (s1.is_exact && s2.is_exact)
      || (op == Op.mul && (XR.beq a (XR.fin 0) && XR.beq b (XR.fin 0))) then
    some (SornValue.Exact a)
  else if s1.is_open || s2.is_open then
    some (SornValue.Open (a, b))
  else if (s1.is_leftopen && s2.is_leftopen) || (s1.is_leftopen && s2.is_exact)
      || (s1.is_exact && s2.is_leftopen) then
    some (SornValue.OpenLeft (a, b))
  else if (s1.is_rightopen && s2.is_rightopen) || (s1.is_rightopen && s2.is_exact)
      || (s1.is_exact && s2.is_rightopen) then
    some (SornValue.OpenRight (a, b))
  else if (s1.is_leftopen && s2.is_rightopen) || (s1.is_rightopen && s2.is_leftopen) then
    some (SornValue.Open (a, b))
  else if (XR.beq a XR.posInf && XR.beq b XR.posInf)
      || (XR.beq a XR.negInf && XR.beq b XR.negInf) then
    some SornValue.PlusMinusInf
  else
    none

/-- Kind propagation of `checked_op` for one `(s1, s2)` pair. -/
def cellOut (op : Op) (s1 s2 : SornValue) : Option SornValue :=
  cellPick op (op_bounds op s1 s2).1 (op_bounds op s1 s2).2 s1 s2

/-- The mask contributed by one `(s1, s2)` pair, classified against the
target's partition. -/
def cellBits (st : SornSet) (op : Op) (s1 s2 : SornValue) : ℕ :=
  match cellOut op s1 s2 with
  | some v => sorn_to_bits st v
  | none => 0

/-- The nested `for sorn1 … for sorn2 …` accumulation of `checked_op`. -/
def crossUnion (st : SornSet) (op : Op) (l1 l2 : List SornValue) : ℕ :=
  orFold (l1.map fun s1 => orFold (l2.map fun s2 => cellBits st op s1 s2))

/-- The `bits` of the target after the `PlusMinusInf` special case of
`checked_op` (lines 505-519 of `src/sorn.rs`): both operands containing
the sentinel attempts `set_bits(!0)` (which fails, leaving the bits alone,
whenever the partition is shorter than the mask word); exactly one
containing it sets all `len` low bits. -/
def infBits (selfSet : SornSet) (selfBits : ℕ) (operandSet : SornSet)
    (operandBits : ℕ) : ℕ :=
  if contains selfSet selfBits SornValue.PlusMinusInf
      && contains operandSet operandBits SornValue.PlusMinusInf then
    setBitsN selfSet.sets.length selfBits allOnes
  else if contains selfSet selfBits SornValue.PlusMinusInf
      || contains operandSet operandBits SornValue.PlusMinusInf then
    setBitsN selfSet.sets.length selfBits (2 ^ selfSet.sets.length - 1)
  else selfBits

/-- The accumulated result of the endpoint cross product of `checked_op`
(lines 522-607 of `src/sorn.rs`); the ranges are captured from the bits the
operands had on entry. -/
def crossResult (selfSet : SornSet) (selfBits : ℕ) (operandSet : SornSet)
    (operandBits : ℕ) (op : Op) : ℕ :=
  crossUnion selfSet op (get_ranges selfSet selfBits)
    (get_ranges operandSet operandBits)

/-- `Sorn::checked_op`.  The triple is (returned error, the partition state
behind `self.sorn_set` after the call, `self.bits` after the call).  The
operand is an immutable borrow, so only the target's bits change; the
partition-state argument of the operand matters only for `get_ranges` and
the `contains` checks, exactly as in the source.  The memo keys use the
target's current bits, i.e. the value left by the `PlusMinusInf` special
case, as in the source. -/
def checked_op (selfSet : SornSet) (selfBits : ℕ) (operandSet : SornSet)
    (operandBits : ℕ) (op : Op) : Option SornErrors × SornSet × ℕ :=
  if sornSetEq selfSet operandSet = false then
    (some SornErrors.DifferentSornSets, selfSet, selfBits)
  else
    match lookupMemo selfSet op (selfBits, operandBits) with
    | some r => (none, selfSet, setBitsN selfSet.sets.length selfBits r)
    | none =>
        let bits1 : ℕ := infBits selfSet selfBits operandSet operandBits
        let result : ℕ := crossResult selfSet selfBits operandSet operandBits op
        let st1 := insertMemo selfSet op (bits1, operandBits) result
        let st2 := insertMemo st1 op (operandBits, bits1) result
        (none, st2, setBitsN selfSet.sets.length bits1 result)

/-- `Sorn::checked_add`. -/
def checked_add (selfSet : SornSet) (selfBits : ℕ) (operandSet : SornSet)
    (operandBits : ℕ) : Option SornErrors × SornSet × ℕ :=
  checked_op selfSet selfBits operandSet operandBits Op.add

/-- `Sorn::checked_sub`. -/
def checked_sub (selfSet : SornSet) (selfBits : ℕ) (operandSet : SornSet)
    (operandBits : ℕ) : Option SornErrors × SornSet × ℕ :=
  checked_op selfSet selfBits operandSet operandBits Op.sub

/-- `Sorn::checked_mul`. -/
def checked_mul (selfSet : SornSet) (selfBits : ℕ) (operandSet : SornSet)
    (operandBits : ℕ) : Option SornErrors × SornSet × ℕ :=
  checked_op selfSet selfBits operandSet operandBits Op.mul

/-- `Sorn::checked_div`. -/
def checked_div (selfSet : SornSet) (selfBits : ℕ) (operandSet : SornSet)
    (operandBits : ℕ) : Option SornErrors × SornSet × ℕ :=
  checked_op selfSet selfBits operandSet operandBits Op.div

/-- The per-element transform of `Sorn::negate` (endpoints negated; the
half-open side flips when the endpoint order reverses). -/
def negate_val : SornValue → SornValue
  | SornValue.Exact v => SornValue.Exact (XR.neg v)
  | SornValue.Open (s, e) =>
      if XR.lt (XR.neg e) (XR.neg s) then SornValue.Open (XR.neg e, XR.neg s)
      else SornValue.Open (XR.neg s, XR.neg e)
  | SornValue.OpenLeft (s, e) =>
      if XR.lt (XR.neg e) (XR.neg s) then SornValue.OpenRight (XR.neg e, XR.neg s)
      else SornValue.OpenLeft (XR.neg s, XR.neg e)
  | SornValue.OpenRight (s, e) =>
      if XR.lt (XR.neg e) (XR.neg s) then SornValue.OpenLeft (XR.neg e, XR.neg s)
      else SornValue.OpenRight (XR.neg s, XR.neg e)
  | SornValue.PlusMinusInf => SornValue.PlusMinusInf
  | SornValue.Empty => SornValue.Empty

/-- `Sorn::negate`: the bits of the fresh carrier it returns (the target is
not mutated; the fresh carrier starts at 0 and `set_bits` keeps 0 if the
result were out of range). -/
def negate (st : SornSet) (bits : ℕ) : ℕ :=
  setBitsN st.sets.length 0
    (orFold ((get_ranges st bits).map fun v => sorn_to_bits st (negate_val v)))

/-- The per-element transform of `Sorn::pow` for exponent `power`. -/
def pow_val (power : ℤ) : SornValue → SornValue
  | SornValue.Exact v => SornValue.Exact (XR.powi v power)
  | SornValue.Open (s, e) =>
      if XR.lt (XR.powi e power) (XR.powi s power) then
        SornValue.Open (XR.powi e power, XR.powi s power)
      else SornValue.Open (XR.powi s power, XR.powi e power)
  | SornValue.OpenLeft (s, e) =>
      if XR.lt (XR.powi e power) (XR.powi s power) then
        SornValue.OpenRight (XR.powi e power, XR.powi s power)
      else SornValue.OpenLeft (XR.powi s power, XR.powi e power)
  | SornValue.OpenRight (s, e) =>
      if XR.lt (XR.powi e power) (XR.powi s power) then
        SornValue.OpenLeft (XR.powi e power, XR.powi s power)
      else SornValue.OpenRight (XR.powi s power, XR.powi e power)
  | SornValue.PlusMinusInf => SornValue.PlusMinusInf
  | SornValue.Empty => SornValue.Empty

/-- `Sorn::pow`: returns the fresh carrier's bits and the partition state
after the call.  On a hit in `precomputed_pow` (keyed by the input mask
only) the cached mask is returned and nothing is inserted; on a miss the
computed mask is inserted under the input mask. -/
def pow (st : SornSet) (bits : ℕ) (power : ℤ) : ℕ × SornSet :=
  match plookup bits st.precomputed_pow with
  | some r => (setBitsN st.sets.length 0 r, st)
  | none =>
      let result : ℕ :=
        orFold ((get_ranges st bits).map fun v => sorn_to_bits st (pow_val power v))
      (setBitsN st.sets.length 0 result,
        { st with precomputed_pow := (bits, result) :: st.precomputed_pow })

end Sorn

/-- `SornTable` from `src/sorntable_gen.rs`: the final partition state and
the generated header and table data. -/
structure SornTable where
  sorn_sets : SornSet
  header : List ℕ
  table_data : List (List ℕ)

namespace Sorn

/-- One `table_data[j][i] = (sorns[i] op sorns[j]).bits` step of
`gen_table`, including the convenience operator's error swallowing
(`bits = 0` when `set_bits` failed or the checked op returned an error). -/
def gen_step (op : Op) (acc : SornSet × List (List ℕ)) (ij : ℕ × ℕ) :
    SornSet × List (List ℕ) :=
  let st := acc.1
  let tbl := acc.2
  let i := ij.1
  let j := ij.2
  let r1 := trySetBits st.sets.length 0 (1 <<< i)
  let t := checked_op st r1.1 st (1 <<< j) op
  let cur : ℕ := if r1.2 = false ∨ (t.1).isSome then 0 else t.2.2
  (t.2.1, tbl.set j ((tbl.getD j []).set i cur))

/-- The `(i, j)` iteration order of `gen_table`'s nested loops. -/
def gen_pairs (n : ℕ) : List (ℕ × ℕ) :=
  (List.range n).flatMap fun i => (List.range n).map fun j => (i, j)

/-- `gen_table` from `src/sorntable_gen.rs` (tag as a closed enum; the
unrecognised-tag arm panics in the source). -/
def gen_table (st : SornSet) (op : Op) : SornTable :=
  let n := st.sets.length
  let header := (List.range n).map fun i => setBitsN n 0 (1 <<< i)
  let init : List (List ℕ) := List.replicate n (List.replicate n 0)
  let res := (gen_pairs n).foldl (gen_step op) (st, init)
  { sorn_sets := res.1, header := header, table_data := res.2 }

/-- Cell `(r, c)` (0-indexed row, column) of the generated table data; the
specification's 1-indexed cell `(i, j)` (row/column 0 being the header) is
`cellOf t (i − 1) (j − 1)`. -/
def cellOf (t : SornTable) (r c : ℕ) : ℕ :=
  (t.table_data.getD r []).getD c 0

end Sorn

/-! Generic facts about `orFold` and masks. -/

theorem orFold_testBit (l : List ℕ) (t : ℕ) :
    (orFold l).testBit t = l.any fun x => x.testBit t := by
  induction l with
  | nil => simp [orFold]
  | cons x xs ih => simp [orFold, Nat.testBit_lor, ih]

theorem orFold_lt {n : ℕ} {l : List ℕ} (h : ∀ x ∈ l, x < 2 ^ n) :
    orFold l < 2 ^ n := by
  induction l with
  | nil => simpa [orFold] using Nat.pos_pow_of_pos n (by norm_num)
  | cons x xs ih =>
      exact Nat.or_lt_two_pow (h x (by simp)) (ih fun y hy => h y (by simp [hy]))

/-- Exchange of two `Bool.any` quantifiers. -/
theorem any_swap {α β : Type} (A : List α) (B : List β) (p : α → β → Bool) :
    (A.any fun a => B.any fun b => p a b) = (B.any fun b => A.any fun a => p a b) := by
  apply Bool.coe_iff_coe.mp
  simp only [List.any_eq_true]
  constructor
  · rintro ⟨a, ha, b, hb, hab⟩
    exact ⟨b, hb, a, ha, hab⟩
  · rintro ⟨b, hb, a, ha, hab⟩
    exact ⟨a, ha, b, hb, hab⟩

/-! Transfer structure: the non-NaN values of `XR` order-embed into
`WithBot (WithTop ℚ)`, through which the `f64::min` / `f64::max` algebra
is established. -/

abbrev ER : Type := WithBot (WithTop ℚ)

def XR.toO : XR → Option ER
  | XR.nan => none
  | XR.negInf => some ⊥
  | XR.posInf => some ⊤
  | XR.fin q => some ((q : WithTop ℚ) : ER)

theorem XR.toO_inj {x y : XR} (h : XR.toO x = XR.toO y) : x = y := by
  cases x <;> cases y <;> simp_all [XR.toO]

def omin : Option ER → Option ER → Option ER
  | none, b => b
  | a, none => a
  | some a, some b => some (a ⊓ b)

def omax : Option ER → Option ER → Option ER
  | none, b => b
  | a, none => a
  | some a, some b => some (a ⊔ b)

theorem omin_comm (a b : Option ER) : omin a b = omin b a := by
  cases a <;> cases b <;> simp [omin, inf_comm]

theorem omin_assoc (a b c : Option ER) : omin (omin a b) c = omin a (omin b c) := by
  cases a <;> cases b <;> cases c <;> simp [omin, inf_assoc]

theorem omin_shuffle (a b c d : Option ER) :
    omin (omin a b) (omin c d) = omin (omin a c) (omin b d) := by
  rw [omin_assoc, omin_assoc, ← omin_assoc b c d, omin_comm b c, omin_assoc c b d]

theorem omax_comm (a b : Option ER) : omax a b = omax b a := by
  cases a <;> cases b <;> simp [omax, sup_comm]

theorem omax_assoc (a b c : Option ER) : omax (omax a b) c = omax a (omax b c) := by
  cases a <;> cases b <;> cases c <;> simp [omax, sup_assoc]

theorem omax_shuffle (a b c d : Option ER) :
    omax (omax a b) (omax c d) = omax (omax a c) (omax b d) := by
  rw [omax_assoc, omax_assoc, ← omax_assoc b c d, omax_comm b c, omax_assoc c b d]

theorem XR.toO_fmin (x y : XR) : XR.toO (XR.fmin x y) = omin (XR.toO x) (XR.toO y) := by
  cases x <;> cases y <;>
    simp [XR.fmin, XR.lt, XR.toO, omin] <;>
    try simp [inf_comm, inf_assoc, bot_inf_eq, inf_bot_eq, top_inf_eq, inf_top_eq]
  case fin.fin p q =>
    rcases lt_or_le p q with h | h
    · simp [h, inf_eq_left.mpr h.le, ← WithBot.coe_inf, ← WithTop.coe_inf]
    · simp [not_lt.mpr h, inf_eq_right.mpr h, ← WithBot.coe_inf, ← WithTop.coe_inf]

theorem XR.toO_fmax (x y : XR) : XR.toO (XR.fmax x y) = omax (XR.toO x) (XR.toO y) := by
  cases x <;> cases y <;>
    simp [XR.fmax, XR.lt, XR.toO, omax] <;>
    try simp [sup_comm, sup_assoc, bot_sup_eq, sup_bot_eq, top_sup_eq, sup_top_eq]
  case fin.fin p q =>
    rcases lt_or_le q p with h | h
    · simp [h, sup_eq_left.mpr h.le, ← WithBot.coe_sup, ← WithTop.coe_sup]
    · simp [not_lt.mpr h, sup_eq_right.mpr h, ← WithBot.coe_sup, ← WithTop.coe_sup]

theorem XR.fmin_shuffle (a b c d : XR) :
    XR.fmin (XR.fmin a b) (XR.fmin c d) = XR.fmin (XR.fmin a c) (XR.fmin b d) := by
  apply XR.toO_inj
  rw [XR.toO_fmin, XR.toO_fmin, XR.toO_fmin, XR.toO_fmin, XR.toO_fmin, XR.toO_fmin,
    omin_shuffle]

theorem XR.fmax_shuffle (a b c d : XR) :
    XR.fmax (XR.fmax a b) (XR.fmax c d) = XR.fmax (XR.fmax a c) (XR.fmax b d) := by
  apply XR.toO_inj
  rw [XR.toO_fmax, XR.toO_fmax, XR.toO_fmax, XR.toO_fmax, XR.toO_fmax, XR.toO_fmax,
    omax_shuffle]

theorem XR.add_comm (x y : XR) : XR.add x y = XR.add y x := by
  cases x <;> cases y <;> simp [XR.add] <;> ring

theorem XR.mul_comm (x y : XR) : XR.mul x y = XR.mul y x := by
  cases x <;> cases y <;> simp [XR.mul] <;> ring

theorem any_map_fun {α β : Type} (l : List α) (f : α → β) (p : β → Bool) :
    (l.map f).any p = l.any fun a => p (f a) := by
  induction l <;> simp_all

/-! Symmetry of the cross product for the commutative operations. -/

theorem op_bounds_comm {op : Op} (hop : op = Op.add ∨ op = Op.mul)
    (s1 s2 : SornValue) : Sorn.op_bounds op s1 s2 = Sorn.op_bounds op s2 s1 := by
  have hf : ∀ x y, opFun op x y = opFun op y x := by
    intro x y
    rcases hop with rfl | rfl
    · exact XR.add_comm x y
    · exact XR.mul_comm x y
  unfold Sorn.op_bounds
  rw [hf s2.min s1.min, hf s2.min s1.max, hf s2.max s1.min, hf s2.max s1.max]
  exact Prod.ext (XR.fmin_shuffle _ _ _ _) (XR.fmax_shuffle _ _ _ _)

theorem cellPick_comm (op : Op) (a b : XR) (s1 s2 : SornValue) :
    Sorn.cellPick op a b s1 s2 = Sorn.cellPick op a b s2 s1 := by
  cases s1 <;> cases s2 <;>
    simp [Sorn.cellPick, SornValue.is_exact, SornValue.is_open, SornValue.is_leftopen,
      SornValue.is_rightopen]

theorem cellOut_comm {op : Op} (hop : op = Op.add ∨ op = Op.mul)
    (s1 s2 : SornValue) : Sorn.cellOut op s1 s2 = Sorn.cellOut op s2 s1 := by
  unfold Sorn.cellOut
  rw [op_bounds_comm hop, cellPick_comm]

theorem cellBits_comm {op : Op} (hop : op = Op.add ∨ op = Op.mul) (st : SornSet)
    (s1 s2 : SornValue) : Sorn.cellBits st op s1 s2 = Sorn.cellBits st op s2 s1 := by
  unfold Sorn.cellBits
  rw [cellOut_comm hop]

theorem crossUnion_comm {op : Op} (hop : op = Op.add ∨ op = Op.mul) (st : SornSet)
    (A B : List SornValue) : Sorn.crossUnion st op A B = Sorn.crossUnion st op B A := by
  apply Nat.eq_of_testBit_eq
  intro t
  simp only [Sorn.crossUnion, orFold_testBit, any_map_fun]
  rw [any_swap]
  exact congrArg _ (funext fun b => congrArg _ (funext fun a => by rw [cellBits_comm hop]))

/-! Range bounds: classifier results, cross products and `negate`/`pow`
results always fit below `2 ^ len`. -/

theorem stbAux_lt (c : Bool) (v : SornValue) (l : List SornValue) :
    ∀ i : ℕ, Sorn.stbAux c v i l < 2 ^ (i + l.length) := by
  induction l with
  | nil => intro i; simpa [Sorn.stbAux] using Nat.two_pow_pos i
  | cons x xs ih =>
      intro i
      apply Nat.or_lt_two_pow
      · have h1 : (1 <<< i) < 2 ^ (i + (x :: xs).length) := by
          rw [Nat.shiftLeft_eq, one_mul]
          exact Nat.pow_lt_pow_right one_lt_two (by simp)
        have h0 : (1 <<< 0) < 2 ^ (i + (x :: xs).length) := by
          rw [Nat.shiftLeft_eq, one_mul]
          exact Nat.one_lt_two_pow (by simp)
        split
        · exact h1
        · split
          · exact h0
          · exact Nat.two_pow_pos _
      · have h2 := ih (i + 1)
        have he : i + 1 + xs.length = i + (x :: xs).length := by
          simp
          omega
        rw [he] at h2
        exact h2

theorem sorn_to_bits_lt (st : SornSet) (v : SornValue) :
    Sorn.sorn_to_bits st v < 2 ^ st.sets.length := by
  simpa using stbAux_lt st.contains_inf v st.sets 0

theorem cellBits_lt (st : SornSet) (op : Op) (s1 s2 : SornValue) :
    Sorn.cellBits st op s1 s2 < 2 ^ st.sets.length := by
  unfold Sorn.cellBits
  cases Sorn.cellOut op s1 s2 with
  | none => exact Nat.two_pow_pos _
  | some v => exact sorn_to_bits_lt st v

theorem crossUnion_lt (st : SornSet) (op : Op) (A B : List SornValue) :
    Sorn.crossUnion st op A B < 2 ^ st.sets.length := by
  apply orFold_lt
  intro x hx
  simp only [List.mem_map] at hx
  obtain ⟨s1, _, rfl⟩ := hx
  apply orFold_lt
  intro y hy
  simp only [List.mem_map] at hy
  obtain ⟨s2, _, rfl⟩ := hy
  exact cellBits_lt st op s1 s2

theorem setBitsN_of_lt {len x : ℕ} (cur : ℕ) (h : x < 2 ^ len) :
    Sorn.setBitsN len cur x = x := by
  simp [Sorn.setBitsN, Sorn.trySetBits, h]

/-! Unfolding lemmas for `checked_op`. -/

theorem checked_op_guard {s o : SornSet} (a b : ℕ) (op : Op)
    (h : sornSetEq s o = false) :
    Sorn.checked_op s a o b op = (some SornErrors.DifferentSornSets, s, a) := by
  simp [Sorn.checked_op, h]

theorem checked_op_hit {s o : SornSet} {a b r : ℕ} {op : Op}
    (hg : sornSetEq s o = true) (hm : lookupMemo s op (a, b) = some r) :
    Sorn.checked_op s a o b op = (none, s, Sorn.setBitsN s.sets.length a r) := by
  simp [Sorn.checked_op, hg, hm]

theorem checked_op_miss {s o : SornSet} {a b : ℕ} {op : Op}
    (hg : sornSetEq s o = true) (hm : lookupMemo s op (a, b) = none) :
    Sorn.checked_op s a o b op =
      (none,
        insertMemo (insertMemo s op (Sorn.infBits s a o b, b) (Sorn.crossResult s a o b op))
          op (b, Sorn.infBits s a o b) (Sorn.crossResult s a o b op),
        Sorn.crossResult s a o b op) := by
  have hlt : Sorn.crossResult s a o b op < 2 ^ s.sets.length := crossUnion_lt s op _ _
  simp [Sorn.checked_op, hg, hm, setBitsN_of_lt _ hlt]

/-! Frame lemmas: memo insertion touches nothing but its own table. -/

theorem insertMemo_sets (st : SornSet) (op : Op) (k : ℕ × ℕ) (v : ℕ) :
    (insertMemo st op k v).sets = st.sets := by
  cases op <;> rfl

theorem insertMemo_contains_inf (st : SornSet) (op : Op) (k : ℕ × ℕ) (v : ℕ) :
    (insertMemo st op k v).contains_inf = st.contains_inf := by
  cases op <;> rfl

theorem insertMemo_one_bit (st : SornSet) (op : Op) (k : ℕ × ℕ) (v : ℕ) :
    (insertMemo st op k v).one_bit = st.one_bit := by
  cases op <;> rfl

theorem insertMemo_pow (st : SornSet) (op : Op) (k : ℕ × ℕ) (v : ℕ) :
    (insertMemo st op k v).precomputed_pow = st.precomputed_pow := by
  cases op <;> rfl

theorem checked_op_frame (s : SornSet) (a : ℕ) (o : SornSet) (b : ℕ) (op : Op) :
    ((Sorn.checked_op s a o b op).2.1).sets = s.sets ∧
    ((Sorn.checked_op s a o b op).2.1).contains_inf = s.contains_inf ∧
    ((Sorn.checked_op s a o b op).2.1).one_bit = s.one_bit ∧
    ((Sorn.checked_op s a o b op).2.1).precomputed_pow = s.precomputed_pow := by
  by_cases hg : sornSetEq s o = true
  · cases hm : lookupMemo s op (a, b) with
    | some r => rw [checked_op_hit hg hm]; exact ⟨rfl, rfl, rfl, rfl⟩
    | none =>
        rw [checked_op_miss hg hm]
        simp [insertMemo_sets, insertMemo_contains_inf, insertMemo_one_bit, insertMemo_pow]
  · rw [checked_op_guard a b op (Bool.not_eq_true _ ▸ (by simpa using hg))]
    exact ⟨rfl, rfl, rfl, rfl⟩

/-! State-dependence lemmas: the classifier, the ranges and the cross
product only read `sets` and `contains_inf`. -/

theorem sorn_to_bits_congr {s1 s2 : SornSet} (hs : s1.sets = s2.sets)
    (hc : s1.contains_inf = s2.contains_inf) (v : SornValue) :
    Sorn.sorn_to_bits s1 v = Sorn.sorn_to_bits s2 v := by
  unfold Sorn.sorn_to_bits
  rw [hs, hc]

theorem get_ranges_congr {s1 s2 : SornSet} (hs : s1.sets = s2.sets) (bits : ℕ) :
    Sorn.get_ranges s1 bits = Sorn.get_ranges s2 bits := by
  unfold Sorn.get_ranges
  rw [hs]

theorem contains_congr {s1 s2 : SornSet} (hs : s1.sets = s2.sets)
    (bits : ℕ) (v : SornValue) :
    Sorn.contains s1 bits v = Sorn.contains s2 bits v := by
  unfold Sorn.contains
  rw [hs]

theorem cellBits_congr {s1 s2 : SornSet} (hs : s1.sets = s2.sets)
    (hc : s1.contains_inf = s2.contains_inf) (op : Op) (x y : SornValue) :
    Sorn.cellBits s1 op x y = Sorn.cellBits s2 op x y := by
  unfold Sorn.cellBits
  cases Sorn.cellOut op x y with
  | none => rfl
  | some v => exact sorn_to_bits_congr hs hc v

theorem crossUnion_congr {s1 s2 : SornSet} (hs : s1.sets = s2.sets)
    (hc : s1.contains_inf = s2.contains_inf) (op : Op) (A B : List SornValue) :
    Sorn.crossUnion s1 op A B = Sorn.crossUnion s2 op A B := by
  unfold Sorn.crossUnion
  congr 1
  congr 1
  funext a
  congr 1
  congr 1
  funext b
  exact cellBits_congr hs hc op a b

theorem sornSetEq_congr {s1 s2 o1 o2 : SornSet} (hs : s1.sets = s2.sets)
    (hc : s1.contains_inf = s2.contains_inf) (ho : o1.sets = o2.sets)
    (hoc : o1.contains_inf = o2.contains_inf) :
    sornSetEq s1 o1 = sornSetEq s2 o2 := by
  unfold sornSetEq
  rw [hs, hc, ho, hoc]

/-! Memo-table coherence machinery. -/

/-- Recomputation of a binary operation from scratch on carriers of a
single partition: the endpoint cross product on the operands' ranges. -/
def Sorn.rawOpBits (st : SornSet) (op : Op) (a b : ℕ) : ℕ :=
  Sorn.crossResult st a st b op

theorem rawOpBits_comm {op : Op} (hop : op = Op.add ∨ op = Op.mul) (st : SornSet)
    (a b : ℕ) : Sorn.rawOpBits st op a b = Sorn.rawOpBits st op b a :=
  crossUnion_comm hop st _ _

theorem rawOpBits_lt (st : SornSet) (op : Op) (a b : ℕ) :
    Sorn.rawOpBits st op a b < 2 ^ st.sets.length :=
  crossUnion_lt st op _ _

/-- A memo table is coherent when every entry agrees with an on-the-fly
recomputation of the operation on its key. -/
def Coherent (st : SornSet) (op : Op) : Prop :=
  ∀ x y r, lookupMemo st op (x, y) = some r → r = Sorn.rawOpBits st op x y

/-- A memo table is symmetric when the two orientations of a key always
agree (every insertion of `checked_op` writes both orientations). -/
def TableSym (st : SornSet) (op : Op) : Prop :=
  ∀ x y, lookupMemo st op (x, y) = lookupMemo st op (y, x)

/-- All cached values fit the partition width. -/
def TableInRange (st : SornSet) (op : Op) : Prop :=
  ∀ x y r, lookupMemo st op (x, y) = some r → r < 2 ^ st.sets.length

/-- No partition element is the `PlusMinusInf` sentinel (true of every
partition built by `SornSet::new` or `SornSet::from_string`). -/
def NoPminf (st : SornSet) : Prop := ∀ x ∈ st.sets, x.is_pminf = false

theorem svBeq_pminf (x : SornValue) : svBeq SornValue.PlusMinusInf x = x.is_pminf := by
  cases x <;> rfl

theorem containsAux_pminf_false {bits : ℕ} {l : List SornValue}
    (h : ∀ x ∈ l, x.is_pminf = false) :
    ∀ i : ℕ, Sorn.containsAux bits SornValue.PlusMinusInf i l = false := by
  induction l with
  | nil => intro i; rfl
  | cons x xs ih =>
      intro i
      have hx : x.is_pminf = false := h x (by simp)
      simp [Sorn.containsAux, svBeq_pminf, hx]
      exact ih (fun y hy => h y (by simp [hy])) (i + 1)

theorem contains_pminf_false {st : SornSet} (hnp : NoPminf st) (bits : ℕ) :
    Sorn.contains st bits SornValue.PlusMinusInf = false :=
  containsAux_pminf_false hnp 0

theorem infBits_id {s o : SornSet} {a b : ℕ}
    (h1 : Sorn.contains s a SornValue.PlusMinusInf = false)
    (h2 : Sorn.contains o b SornValue.PlusMinusInf = false) :
    Sorn.infBits s a o b = a := by
  simp [Sorn.infBits, h1, h2]

theorem lookup_insert (st : SornSet) (op : Op) (k k1 : ℕ × ℕ) (v : ℕ) :
    lookupMemo (insertMemo st op k1 v) op k =
      if k = k1 then some v else lookupMemo st op k := by
  cases op <;> simp [insertMemo, lookupMemo, alookup]

/-- Cache transparency at the level of one call: on a coherent table the
result bits of `checked_op` coincide with the from-scratch recomputation,
whether or not the memo hits. -/
theorem checked_op_transparent {st : SornSet} {op : Op}
    (hg : sornSetEq st st = true) (hcoh : Coherent st op) (a b : ℕ) :
    (Sorn.checked_op st a st b op).2.2 = Sorn.rawOpBits st op a b := by
  cases hm : lookupMemo st op (a, b) with
  | some r =>
      rw [checked_op_hit hg hm]
      rw [hcoh a b r hm]
      exact setBitsN_of_lt a (rawOpBits_lt st op a b)
  | none =>
      rw [checked_op_miss hg hm]
      rfl

/-- For the commutative operations on sentinel-free partitions, one
`checked_op` call keeps its memo table coherent (the mirrored insertion is
harmless because the recomputation is symmetric). -/
theorem checked_op_preserves_coherent {st : SornSet} {op : Op}
    (hop : op = Op.add ∨ op = Op.mul) (hg : sornSetEq st st = true)
    (hnp : NoPminf st) (hcoh : Coherent st op) (a b : ℕ) :
    Coherent (Sorn.checked_op st a st b op).2.1 op := by
  cases hm : lookupMemo st op (a, b) with
  | some r => rw [checked_op_hit hg hm]; exact hcoh
  | none =>
      rw [checked_op_miss hg hm]
      have hib : Sorn.infBits st a st b = a :=
        infBits_id (contains_pminf_false hnp a) (contains_pminf_false hnp b)
      rw [hib]
      intro x y r h
      set st2 := insertMemo (insertMemo st op (a, b) (Sorn.crossResult st a st b op)) op
        (b, a) (Sorn.crossResult st a st b op) with hst2
      have hsets : st2.sets = st.sets := by
        rw [hst2, insertMemo_sets, insertMemo_sets]
      have hcinf : st2.contains_inf = st.contains_inf := by
        rw [hst2, insertMemo_contains_inf, insertMemo_contains_inf]
      have hraw : ∀ u v : ℕ, Sorn.rawOpBits st2 op u v = Sorn.rawOpBits st op u v := by
        intro u v
        unfold Sorn.rawOpBits Sorn.crossResult
        rw [get_ranges_congr hsets, get_ranges_congr hsets,
          crossUnion_congr hsets hcinf]
      rw [hraw]
      rw [hst2, lookup_insert, lookup_insert] at h
      by_cases h1 : (x, y) = (b, a)
      · rw [if_pos h1] at h
        injection h with h
        rw [Prod.mk.injEq] at h1
        calc r = Sorn.rawOpBits st op a b := h.symm
          _ = Sorn.rawOpBits st op b a := rawOpBits_comm hop st a b
          _ = Sorn.rawOpBits st op x y := by rw [h1.1, h1.2]
      · rw [if_neg h1] at h
        by_cases h2 : (x, y) = (a, b)
        · rw [if_pos h2] at h
          injection h with h
          rw [Prod.mk.injEq] at h2
          calc r = Sorn.rawOpBits st op a b := h.symm
            _ = Sorn.rawOpBits st op x y := by rw [h2.1, h2.2]
        · rw [if_neg h2] at h
          exact hcoh x y r h

/-- Commutativity of the result bits for the commutative operations, on
any symmetric, in-range memo table. -/
theorem checked_op_commutes {st : SornSet} {op : Op}
    (hop : op = Op.add ∨ op = Op.mul) (hg : sornSetEq st st = true)
    (hsym : TableSym st op) (hran : TableInRange st op) (a b : ℕ) :
    (Sorn.checked_op st a st b op).2.2 = (Sorn.checked_op st b st a op).2.2 := by
  cases hm : lookupMemo st op (a, b) with
  | some r =>
      have hm2 : lookupMemo st op (b, a) = some r := (hsym b a).trans hm
      rw [checked_op_hit hg hm, checked_op_hit hg hm2]
      rw [setBitsN_of_lt a (hran a b r hm), setBitsN_of_lt b (hran a b r hm)]
  | none =>
      have hm2 : lookupMemo st op (b, a) = none := (hsym b a).trans hm
      rw [checked_op_miss hg hm, checked_op_miss hg hm2]
      exact crossUnion_comm hop st _ _

/-! The specification side of the classifier contract. -/

/-- Modelled from the spec, section 4.1: the pairwise overlap table between
an input value `V` and a partition element `S`, for the non-sentinel value
kinds (the `PlusMinusInf` row of the spec's table is not a pairwise
condition but the aliased bit-0 rule, and is tested separately). -/
def specOverlap (V S : SornValue) : Bool :=
  match V, S with
  | SornValue.Exact x, SornValue.Exact y => XR.beq x y
  | SornValue.Open p, SornValue.Exact y => XR.lt p.1 y && XR.lt y p.2
  | SornValue.Exact x, SornValue.Open p => XR.lt p.1 x && XR.lt x p.2
  | SornValue.OpenLeft p, SornValue.Exact y => XR.lt p.1 y && XR.le y p.2
  | SornValue.Exact x, SornValue.OpenLeft p => XR.lt p.1 x && XR.le x p.2
  | SornValue.OpenRight p, SornValue.Exact y => XR.le p.1 y && XR.lt y p.2
  | SornValue.Exact x, SornValue.OpenRight p => XR.le p.1 x && XR.lt x p.2
  | V, S =>
      if V.is_interval && S.is_interval then
        XR.lt V.min S.max && XR.lt S.min V.max
      else false

theorem overlapCond_eq_spec (V S : SornValue) (hv : V.is_pminf = false) :
    Sorn.overlapCond V S = specOverlap V S := by
  cases V <;> cases S <;>
    simp [Sorn.overlapCond, specOverlap, SornValue.is_exact, SornValue.is_open,
      SornValue.is_leftopen, SornValue.is_rightopen, SornValue.is_interval,
      SornValue.is_pminf, SornValue.min, SornValue.max, SornValue.get] <;>
    simp_all [SornValue.is_pminf]

theorem stbAux_testBit {cinf : Bool} {v : SornValue} (hv : v.is_pminf = false) :
    ∀ (l : List SornValue) (i t : ℕ),
      (Sorn.stbAux cinf v i l).testBit t =
        (decide (i ≤ t) && decide (t - i < l.length)
          && Sorn.overlapCond v (l.getD (t - i) SornValue.Empty)) := by
  intro l
  induction l with
  | nil => intro i t; simp [Sorn.stbAux]
  | cons x xs ih =>
      intro i t
      simp only [Sorn.stbAux, Nat.testBit_lor]
      rw [ih (i + 1) t]
      have hhead :
          (if Sorn.overlapCond v x then 1 <<< i
           else if x.is_pminf && v.is_pminf && cinf then 1 <<< 0
           else 0).testBit t = (decide (i = t) && Sorn.overlapCond v x) := by
        rw [hv]
        simp only [Bool.and_false, Bool.false_and, if_false]
        split
        · next hc =>
            rw [Nat.shiftLeft_eq, one_mul, Nat.testBit_two_pow, hc]
            simp
        · next hc => simp [Nat.zero_testBit, Bool.eq_false_iff.mpr hc]
      rw [hhead]
      rcases Nat.lt_trichotomy t i with h | h | h
      · simp [show i ≠ t by omega, show ¬(i ≤ t) by omega, show ¬(i + 1 ≤ t) by omega]
      · subst h
        simp [List.getD_cons_zero, Nat.sub_self, show ¬(t + 1 ≤ t) by omega]
      · have ht : t - i = (t - (i + 1)) + 1 := by omega
        simp [show i ≠ t by omega, show i ≤ t by omega, show i + 1 ≤ t by omega, ht,
          List.getD_cons_succ, show t - (i + 1) < xs.length + 1 ↔ t - (i + 1) + 1 < xs.length + 1 + 1 by omega]

theorem sorn_to_bits_testBit (st : SornSet) {v : SornValue}
    (hv : v.is_pminf = false) (t : ℕ) :
    (Sorn.sorn_to_bits st v).testBit t =
      (decide (t < st.sets.length)
        && Sorn.overlapCond v (st.sets.getD t SornValue.Empty)) := by
  unfold Sorn.sorn_to_bits
  rw [stbAux_testBit hv st.sets 0 t]
  simp

/-! Characterization of `negate` on mirror-symmetric partitions. -/

theorem grAux_orFold (f : SornValue → ℕ) :
    ∀ (l : List SornValue) (m : ℕ),
      orFold ((Sorn.grAux m l).map f) =
        orFold ((List.range l.length).map fun k =>
          if m.testBit k then f (l.getD k SornValue.Empty) else 0) := by
  intro l
  induction l with
  | nil => intro m; simp [Sorn.grAux]
  | cons x xs ih =>
      intro m
      have hlen : (x :: xs).length = xs.length + 1 := rfl
      rw [hlen, List.range_succ_eq_map, List.map_cons, List.map_map]
      have hmap :
          ((List.range xs.length).map
            ((fun k => if m.testBit k then f ((x :: xs).getD k SornValue.Empty) else 0)
              ∘ Nat.succ)) =
          ((List.range xs.length).map fun k =>
            if (m / 2).testBit k then f (xs.getD k SornValue.Empty) else 0) := by
        apply List.map_congr_left
        intro k _
        simp only [Function.comp]
        rw [List.getD_cons_succ]
        rw [show m.testBit (Nat.succ k) = (m / 2).testBit k from Nat.testBit_succ m k]
      rw [hmap]
      simp only [orFold]
      rw [← ih (m / 2)]
      have hb0 : m.testBit 0 = decide (m % 2 = 1) := by
        rw [Nat.testBit_zero]
      by_cases hm : m % 2 = 1
      · rw [show Sorn.grAux m (x :: xs) = x :: Sorn.grAux (m / 2) xs by
          simp [Sorn.grAux, hm]]
        simp [orFold, hb0, hm, List.getD_cons_zero]
      · rw [show Sorn.grAux m (x :: xs) = Sorn.grAux (m / 2) xs by
          simp [Sorn.grAux, hm]]
        simp [orFold, hb0, hm]

theorem negate_testBit_of_mirror {st : SornSet}
    (H1 : ∀ k < st.sets.length,
      Sorn.negate_val (st.sets.getD k SornValue.Empty) =
        st.sets.getD (st.sets.length - 1 - k) SornValue.Empty)
    (H2 : ∀ k < st.sets.length,
      Sorn.sorn_to_bits st (st.sets.getD k SornValue.Empty) = 1 <<< k)
    (m t : ℕ) :
    (Sorn.negate st m).testBit t =
      (decide (t < st.sets.length) && m.testBit (st.sets.length - 1 - t)) := by
  have hmap : ((List.range st.sets.length).map fun k =>
        if m.testBit k then
          Sorn.sorn_to_bits st (Sorn.negate_val (st.sets.getD k SornValue.Empty))
        else 0) =
      ((List.range st.sets.length).map fun k =>
        if m.testBit k then 1 <<< (st.sets.length - 1 - k) else 0) := by
    apply List.map_congr_left
    intro k hk
    rw [List.mem_range] at hk
    rw [H1 k hk, H2 (st.sets.length - 1 - k) (by omega)]
  have hlt : orFold ((List.range st.sets.length).map fun k =>
      if m.testBit k then 1 <<< (st.sets.length - 1 - k) else 0) < 2 ^ st.sets.length := by
    apply orFold_lt
    intro x hx
    simp only [List.mem_map, List.mem_range] at hx
    obtain ⟨k, hk, rfl⟩ := hx
    split
    · rw [Nat.shiftLeft_eq, one_mul]
      exact Nat.pow_lt_pow_right one_lt_two (by omega)
    · exact Nat.two_pow_pos _
  unfold Sorn.negate Sorn.get_ranges
  rw [grAux_orFold, hmap, setBitsN_of_lt 0 hlt]
  rw [orFold_testBit, any_map_fun]
  apply Bool.coe_iff_coe.mp
  simp only [List.any_eq_true, List.mem_range]
  constructor
  · rintro ⟨k, hk, hkt⟩
    by_cases hb : m.testBit k
    · rw [if_pos hb, Nat.shiftLeft_eq, one_mul, Nat.testBit_two_pow] at hkt
      have ht : st.sets.length - 1 - k = t := by simpa using hkt
      have htn : t < st.sets.length := by omega
      have hk2 : st.sets.length - 1 - t = k := by omega
      simp [htn, hk2, hb]
    · rw [if_neg hb] at hkt
      simp [Nat.zero_testBit] at hkt
  · intro h
    rw [Bool.and_eq_true] at h
    obtain ⟨h1, h2⟩ := h
    have htn : t < st.sets.length := by simpa using h1
    refine ⟨st.sets.length - 1 - t, by omega, ?_⟩
    rw [if_pos h2, Nat.shiftLeft_eq, one_mul, Nat.testBit_two_pow]
    simp
    omega

theorem negate_negate_of_mirror {st : SornSet} {m : ℕ}
    (H1 : ∀ k < st.sets.length,
      Sorn.negate_val (st.sets.getD k SornValue.Empty) =
        st.sets.getD (st.sets.length - 1 - k) SornValue.Empty)
    (H2 : ∀ k < st.sets.length,
      Sorn.sorn_to_bits st (st.sets.getD k SornValue.Empty) = 1 <<< k)
    (hm : m < 2 ^ st.sets.length) :
    Sorn.negate st (Sorn.negate st m) = m := by
  apply Nat.eq_of_testBit_eq
  intro t
  rw [negate_testBit_of_mirror H1 H2, negate_testBit_of_mirror H1 H2]
  by_cases ht : t < st.sets.length
  · have h2 : st.sets.length - 1 - t < st.sets.length := by omega
    have h3 : st.sets.length - 1 - (st.sets.length - 1 - t) = t := by omega
    simp [ht, h2, h3]
  · have hmt : m.testBit t = false := by
      apply Nat.testBit_lt_two_pow
      calc m < 2 ^ st.sets.length := hm
        _ ≤ 2 ^ t := Nat.pow_le_pow_right (by norm_num) (by omega)
    simp [ht, hmt]

/-! The table generator fills every cell with the recomputed operation
result (for coherent tables on the commutative operations). -/

theorem checked_op_err_none {s o : SornSet} (a b : ℕ) (op : Op)
    (hg : sornSetEq s o = true) : (Sorn.checked_op s a o b op).1 = none := by
  cases hm : lookupMemo s op (a, b) with
  | some r => rw [checked_op_hit hg hm]
  | none => rw [checked_op_miss hg hm]

theorem getD_set_self {α : Type} (l : List α) {i : ℕ} (hi : i < l.length) (v d : α) :
    (l.set i v).getD i d = v := by
  rw [List.getD_eq_getElem?_getD, List.getElem?_set, if_pos rfl, if_pos hi]
  rfl

theorem getD_set_ne {α : Type} (l : List α) {i j : ℕ} (h : i ≠ j) (v d : α) :
    (l.set i v).getD j d = l.getD j d := by
  rw [List.getD_eq_getElem?_getD, List.getElem?_set, if_neg h,
    ← List.getD_eq_getElem?_getD]

theorem mem_gen_pairs {n : ℕ} {p : ℕ × ℕ} :
    p ∈ Sorn.gen_pairs n ↔ p.1 < n ∧ p.2 < n := by
  cases p with
  | mk i j =>
      simp [Sorn.gen_pairs, List.mem_range]

theorem gen_loop_cells {op : Op} (hop : op = Op.add ∨ op = Op.mul) (st0 : SornSet)
    (hg0 : sornSetEq st0 st0 = true) (hnp0 : NoPminf st0) :
    ∀ (L : List (ℕ × ℕ)) (st : SornSet) (tbl : List (List ℕ)),
      st.sets = st0.sets → st.contains_inf = st0.contains_inf → Coherent st op →
      (∀ p ∈ L, p.1 < st0.sets.length ∧ p.2 < st0.sets.length) →
      tbl.length = st0.sets.length →
      (∀ row ∈ tbl, row.length = st0.sets.length) →
      ∀ r c : ℕ,
        (((L.foldl (Sorn.gen_step op) (st, tbl)).2).getD r []).getD c 0 =
          if (c, r) ∈ L then Sorn.rawOpBits st0 op (1 <<< c) (1 <<< r)
          else (tbl.getD r []).getD c 0 := by
  intro L
  induction L with
  | nil =>
      intro st tbl _ _ _ _ _ _ r c
      simp
  | cons hd rest ih =>
      intro st tbl hsets hcinf hcoh hL htlen hrows r c
      obtain ⟨i, j⟩ := hd
      have hij := hL (i, j) (by simp)
      have hi : i < st0.sets.length := hij.1
      have hj : j < st0.sets.length := hij.2
      have hstlen : st.sets.length = st0.sets.length := by rw [hsets]
      have hg : sornSetEq st st = true := by
        rw [sornSetEq_congr hsets hcinf hsets hcinf]
        exact hg0
      have hnp : NoPminf st := by
        unfold NoPminf
        rw [hsets]
        exact hnp0
      -- unfold one step
      rw [List.foldl_cons]
      have hr1 : Sorn.trySetBits st.sets.length 0 (1 <<< i) = (1 <<< i, true) := by
        unfold Sorn.trySetBits
        rw [if_pos]
        rw [Nat.shiftLeft_eq, one_mul, hstlen]
        exact Nat.pow_lt_pow_right one_lt_two hi
      have hbits : (Sorn.checked_op st (1 <<< i) st (1 <<< j) op).2.2 =
          Sorn.rawOpBits st0 op (1 <<< i) (1 <<< j) := by
        rw [checked_op_transparent hg hcoh]
        unfold Sorn.rawOpBits Sorn.crossResult
        rw [get_ranges_congr hsets, get_ranges_congr hsets, crossUnion_congr hsets hcinf]
      have herr : (Sorn.checked_op st (1 <<< i) st (1 <<< j) op).1 = none :=
        checked_op_err_none _ _ op hg
      have hstep : Sorn.gen_step op (st, tbl) (i, j) =
          ((Sorn.checked_op st (1 <<< i) st (1 <<< j) op).2.1,
            tbl.set j ((tbl.getD j []).set i
              (Sorn.rawOpBits st0 op (1 <<< i) (1 <<< j)))) := by
        simp only [Sorn.gen_step, hr1, herr, hbits, Option.isSome_none]
        simp
      rw [hstep]
      set st1 := (Sorn.checked_op st (1 <<< i) st (1 <<< j) op).2.1 with hst1
      set tbl1 := tbl.set j ((tbl.getD j []).set i
        (Sorn.rawOpBits st0 op (1 <<< i) (1 <<< j))) with htbl1
      have hframe := checked_op_frame st (1 <<< i) st (1 <<< j) op
      have hsets1 : st1.sets = st0.sets := by rw [hst1, hframe.1, hsets]
      have hcinf1 : st1.contains_inf = st0.contains_inf := by
        rw [hst1, hframe.2.1, hcinf]
      have hcoh1 : Coherent st1 op :=
        checked_op_preserves_coherent hop hg hnp hcoh (1 <<< i) (1 <<< j)
      have htlen1 : tbl1.length = st0.sets.length := by
        rw [htbl1, List.length_set, htlen]
      have hrows1 : ∀ row ∈ tbl1, row.length = st0.sets.length := by
        intro row hrow
        rw [htbl1] at hrow
        rcases List.mem_or_eq_of_mem_set hrow with h | h
        · exact hrows row h
        · rw [h, List.length_set]
          apply hrows
          have hjl : j < tbl.length := by rw [htlen]; exact hj
          rw [List.getD_eq_getElem?_getD, List.getElem?_eq_getElem hjl]
          exact List.getElem_mem hjl
      rw [ih st1 tbl1 hsets1 hcinf1 hcoh1
        (fun p hp => hL p (by simp [hp])) htlen1 hrows1 r c]
      by_cases hmem : (c, r) ∈ rest
      · rw [if_pos hmem, if_pos (by simp [hmem])]
      · rw [if_neg hmem]
        by_cases hcr : (c, r) = (i, j)
        · rw [Prod.mk.injEq] at hcr
          have hjl : j < tbl.length := by rw [htlen]; exact hj
          have hcl : i < (tbl.getD j []).length := by
            rw [hrows (tbl.getD j []) ?_]
            · exact hi
            · rw [List.getD_eq_getElem?_getD, List.getElem?_eq_getElem hjl]
              exact List.getElem_mem hjl
          rw [hcr.1, hcr.2, htbl1, getD_set_self tbl hjl, getD_set_self _ hcl,
            if_pos (by simp)]
        · have hnotin : ¬(c, r) ∈ (i, j) :: rest := by
            intro hx
            rcases List.mem_cons.mp hx with h | h
            · exact hcr h
            · exact hmem h
          rw [if_neg hnotin, htbl1]
          by_cases hrj : r = j
          · subst hrj
            have hjl : r < tbl.length := by rw [htlen]; exact hj
            rw [getD_set_self tbl hjl]
            have hci : i ≠ c := by
              intro hx
              exact hcr (by rw [hx])
            rw [getD_set_ne _ hci]
          · rw [getD_set_ne tbl (fun hx => hrj hx.symm)]

/-! Concrete partitions for witnesses and counterexamples. -/

/-- The scenario-S1 grid `SornSet::new(0, 1, 1, false)`:
`[Exact 0, Open (0, 1), Exact 1]`. -/
def gridPos : SornSet := SornSet.new 0 1 1 false

/-- The negation-symmetric grid `SornSet::new(-1, 1, 1, false)`. -/
def gridSym : SornSet := SornSet.new (-1) 1 1 false

/-- A structurally different grid, `SornSet::new(0, 2, 1, false)`. -/
def gridWide : SornSet := SornSet.new 0 2 1 false

/-- A second partition object with the same `sets` and `contains_inf` as
`gridPos` but a different (pre-populated) add memo table: in the source, a
separately allocated `Rc<RefCell<SornSet>>` in this state still compares
equal to `gridPos` under the `PartialEq` that the partition guard uses. -/
def gridPosVariant : SornSet := { gridPos with precomputed_add := [((1, 1), 5)] }

/-- A partition with the `PlusMinusInf` sentinel pushed as element 3 (the
constructors never produce one; `SornSet::push` is public). -/
def pminfSet : SornSet :=
  SornSet.push
    (SornSet.push
      (SornSet.push
        (SornSet.push SornSet.default (SornValue.Exact (XR.fin 0)))
        (SornValue.Open (XR.fin 0, XR.fin 1)))
      (SornValue.Exact (XR.fin 1)))
    SornValue.PlusMinusInf

/-- An add memo table with no entries is trivially coherent. -/
theorem coherent_gridPos_add : Coherent gridPos Op.add := by
  intro x y r h
  rw [show lookupMemo gridPos Op.add (x, y) = none from rfl] at h
  cases h

/-! Claim theorems. -/

/-- C1: for every partition and every non-sentinel value `V` (one of
`Empty`, `Exact`, `Open`, `OpenLeft`, `OpenRight`), bit `t` of
`classify(P, V)` (`sorn_to_bits`) is set iff `t` indexes a partition
element and `V` overlaps `sets[t]` exactly per the specification's
pairwise table (`specOverlap`); bits at or beyond the partition length are
never set.  In particular, on the grid `[Exact 0, Open (0,1), Exact 1]`
the mask of `Open (0, 1)` is `0b010`. -/
theorem claim_C1 :
    (∀ (st : SornSet) (V : SornValue), V.is_pminf = false →
      ∀ t : ℕ, (Sorn.sorn_to_bits st V).testBit t =
        (decide (t < st.sets.length)
          && specOverlap V (st.sets.getD t SornValue.Empty))) ∧
    gridPos.sets = [SornValue.Exact (XR.fin 0),
      SornValue.Open (XR.fin 0, XR.fin 1), SornValue.Exact (XR.fin 1)] ∧
    Sorn.sorn_to_bits gridPos (SornValue.Open (XR.fin 0, XR.fin 1)) = 2 := by
  refine ⟨?_, by decide, by decide⟩
  intro st V hv t
  rw [sorn_to_bits_testBit st hv t, overlapCond_eq_spec V _ hv]

/-- Witness for C1's hypotheses at a concrete input: `V = Open (0, 1)` is
not the sentinel, and bit 1 of its mask on the S1 grid agrees with the
spec's overlap table. -/
theorem claim_C1_witness :
    (Sorn.sorn_to_bits gridPos (SornValue.Open (XR.fin 0, XR.fin 1))).testBit 1 =
      (decide (1 < gridPos.sets.length)
        && specOverlap (SornValue.Open (XR.fin 0, XR.fin 1))
          (gridPos.sets.getD 1 SornValue.Empty)) :=
  claim_C1.1 gridPos (SornValue.Open (XR.fin 0, XR.fin 1)) rfl 1

/-- C2 counterexample: on a partition carrying the sentinel as element 3,
with both operands' masks containing it (bits `0b1000`) and no memoized
entry, `checked_add` leaves the final mask at `0`, not all-ones: the
attempted `set_bits(!0)` fails silently (partition shorter than the mask
word) and the endpoint cross product is still executed and committed. -/
theorem claim_C2_counterexample :
    Sorn.contains pminfSet 8 SornValue.PlusMinusInf = true ∧
    lookupMemo pminfSet Op.add (8, 8) = none ∧
    (Sorn.checked_add pminfSet 8 pminfSet 8).2.2 = 0 ∧
    (0 : ℕ) ≠ 2 ^ 128 - 1 ∧ (0 : ℕ) ≠ 2 ^ pminfSet.sets.length - 1 := by
  refine ⟨by decide, rfl, by decide, by decide, by decide⟩

/-- C2 as amended: when both operands contain the sentinel (and the pair is
not memoized), the checked operation does not return early; the final mask
is the endpoint cross-product result, and for partitions shorter than the
mask word the interim all-ones write fails silently, leaving the target's
bits unchanged at that point. -/
theorem claim_C2_amended :
    ∀ (s : SornSet) (a : ℕ) (o : SornSet) (b : ℕ) (op : Op),
      sornSetEq s o = true →
      lookupMemo s op (a, b) = none →
      Sorn.contains s a SornValue.PlusMinusInf = true →
      Sorn.contains o b SornValue.PlusMinusInf = true →
      (Sorn.checked_op s a o b op).2.2 = Sorn.crossResult s a o b op ∧
      (s.sets.length < 128 → Sorn.infBits s a o b = a) := by
  intro s a o b op hg hm hc1 hc2
  constructor
  · rw [checked_op_miss hg hm]
  · intro hlen
    unfold Sorn.infBits
    rw [if_pos (by simp [hc1, hc2])]
    unfold Sorn.setBitsN Sorn.trySetBits
    rw [if_neg]
    intro habs
    have h1 : (2 : ℕ) ^ s.sets.length ≤ 2 ^ 127 :=
      Nat.pow_le_pow_right (by norm_num) (by omega)
    have h2 : (2 : ℕ) ^ 127 < 2 ^ 128 - 1 := by norm_num
    unfold Sorn.allOnes Sorn.sorn_max_bits at habs
    omega

/-- Witness for C2's amended hypotheses at the concrete sentinel
partition. -/
theorem claim_C2_amended_witness :
    (Sorn.checked_op pminfSet 8 pminfSet 8 Op.add).2.2 =
      Sorn.crossResult pminfSet 8 pminfSet 8 Op.add ∧
    (pminfSet.sets.length < 128 → Sorn.infBits pminfSet 8 pminfSet 8 = 8) :=
  claim_C2_amended pminfSet 8 pminfSet 8 Op.add (by decide) rfl (by decide) (by decide)

/-- C3 counterexample: `gridPosVariant` is a different partition value
(different memo table), yet the partition guard accepts the pair: the
checked operation succeeds (returns no error) on carriers bound to two
distinct but structurally equal partitions. -/
theorem claim_C3_counterexample :
    gridPos ≠ gridPosVariant ∧
    sornSetEq gridPos gridPosVariant = true ∧
    (Sorn.checked_add gridPos 1 gridPosVariant 4).1 = none := by
  refine ⟨by decide, by decide, by decide⟩

/-- C3 as amended: the partition check is structural, not by identity: the
checked operation fails with `DifferentSornSets` exactly when the two
partitions' `sets` sequences or `contains_inf` flags differ (memo tables
and `one_bit` are ignored), and on failure the target partition state and
bits are left unchanged. -/
theorem claim_C3_amended :
    ∀ (s : SornSet) (a : ℕ) (o : SornSet) (b : ℕ) (op : Op),
      ((Sorn.checked_op s a o b op).1 = some SornErrors.DifferentSornSets ↔
        sornSetEq s o = false) ∧
      (sornSetEq s o = false →
        (Sorn.checked_op s a o b op).2.1 = s ∧ (Sorn.checked_op s a o b op).2.2 = a) := by
  intro s a o b op
  by_cases hg : sornSetEq s o = false
  · rw [checked_op_guard a b op hg]
    exact ⟨by simp [hg], fun _ => ⟨rfl, rfl⟩⟩
  · have hg2 : sornSetEq s o = true := by
      cases hb : sornSetEq s o with
      | true => rfl
      | false => exact absurd hb hg
    constructor
    · rw [checked_op_err_none a b op hg2, hg2]
      simp
    · intro hfalse
      rw [hg2] at hfalse
      simp at hfalse

/-- Witness for C3's amended claim: two structurally different grids fail
with `DifferentSornSets` and leave the target untouched. -/
theorem claim_C3_witness :
    (Sorn.checked_add gridPos 1 gridWide 1).1 = some SornErrors.DifferentSornSets ∧
    (Sorn.checked_add gridPos 1 gridWide 1).2.1 = gridPos ∧
    (Sorn.checked_add gridPos 1 gridWide 1).2.2 = 1 :=
  ⟨(claim_C3_amended gridPos 1 gridWide 1 Op.add).1.mpr (by decide),
   ((claim_C3_amended gridPos 1 gridWide 1 Op.add).2 (by decide)).1,
   ((claim_C3_amended gridPos 1 gridWide 1 Op.add).2 (by decide)).2⟩

/-- C4 counterexample: on the S1 grid, `sub` of `Exact 1` minus `Exact 0`
(masks `0b100`, `0b001`) is `0b100` with the cache empty, but after the
single prior call `sub(0b001, 0b100)` the mirrored memo key makes the same
operation return `0b000`: the result differs between the empty and the
populated cache. -/
theorem claim_C4_counterexample :
    (Sorn.checked_sub gridPos 4 gridPos 1).2.2 = 4 ∧
    (Sorn.checked_sub (Sorn.checked_sub gridPos 1 gridPos 4).2.1 4
      (Sorn.checked_sub gridPos 1 gridPos 4).2.1 1).2.2 = 0 ∧
    (4 : ℕ) ≠ 0 := by
  refine ⟨by decide, by decide, by decide⟩

/-- C4 as amended: cache transparency holds for the commutative operations
`add` and `mul` on sentinel-free partitions: with a coherent memo table
the result bits equal the on-the-fly recomputation (in particular they are
bit-identical with the cache empty and populated), and the call keeps the
table coherent.  For `sub` and `div` the mirrored key stores the result of
the opposite orientation, so the populated table can disagree with
recomputation (see the counterexample). -/
theorem claim_C4_amended :
    ∀ (st : SornSet) (op : Op) (a b : ℕ),
      op = Op.add ∨ op = Op.mul →
      sornSetEq st st = true →
      NoPminf st →
      Coherent st op →
      (Sorn.checked_op st a st b op).2.2 = Sorn.rawOpBits st op a b ∧
      Coherent (Sorn.checked_op st a st b op).2.1 op :=
  fun _ op a b hop hg hnp hcoh =>
    ⟨checked_op_transparent hg hcoh a b,
     checked_op_preserves_coherent hop hg hnp hcoh a b⟩

/-- Witness for C4's amended claim on the S1 grid with an empty cache. -/
theorem claim_C4_witness :
    (Sorn.checked_op gridPos 1 gridPos 2 Op.add).2.2 = Sorn.rawOpBits gridPos Op.add 1 2 ∧
    Coherent (Sorn.checked_op gridPos 1 gridPos 2 Op.add).2.1 Op.add :=
  claim_C4_amended gridPos Op.add 1 2 (Or.inl rfl) (by decide)
    (by unfold NoPminf; decide) coherent_gridPos_add

/-- C5: the claim is right and the code is wrong.  `SornSet::new(-1, 0, 1,
true)` has `contains_inf` set, yet `classify(P, PlusMinusInf)` returns `0`
with bit 0 clear: the constructor's push of the sentinel element is
commented out, so no partition element is `PlusMinusInf` and the bit-0
clause of the classifier never fires.  The partition has 5 elements where
the golden test `test_neg_inf_add` (whose fixture has six header entries,
bit 0 being the sentinel) expects 6, so the code also fails its own test
suite. -/
theorem claim_C5_failing :
    (SornSet.new (-1) 0 1 true).contains_inf = true ∧
    Sorn.sorn_to_bits (SornSet.new (-1) 0 1 true) SornValue.PlusMinusInf = 0 ∧
    (Sorn.sorn_to_bits (SornSet.new (-1) 0 1 true) SornValue.PlusMinusInf).testBit 0
      = false ∧
    (SornSet.new (-1) 0 1 true).sets.length = 5 := by
  refine ⟨by decide, by decide, by decide, by decide⟩

/-- C6 counterexample: on the S1 grid with `op = sub`, the 1-indexed cell
`(3, 1)` of the generated table (0-indexed `cellOf t 2 0`) holds `0`,
while `sub(unit_3, unit_1)` — `Exact 1` minus `Exact 0` on the fresh
partition — is `0b100`: the transposed write combined with the mirrored
memoization puts the opposite orientation's value in the lower triangle. -/
theorem claim_C6_counterexample :
    Sorn.cellOf (Sorn.gen_table gridPos Op.sub) 2 0 = 0 ∧
    (Sorn.checked_sub gridPos 4 gridPos 1).2.2 = 4 ∧
    Sorn.cellOf (Sorn.gen_table gridPos Op.sub) 2 0 ≠
      (Sorn.checked_sub gridPos 4 gridPos 1).2.2 := by
  refine ⟨by decide, by decide, by decide⟩

/-- C6 as amended: for the commutative operations `add` and `mul` (on
sentinel-free partitions with a coherent memo table, as produced by the
constructors), every 1-indexed cell `(i+1, j+1)` of `gen_table` holds
`op(unit_i, unit_j).bits`; for `sub` and `div` this fails below the
diagonal (see the counterexample). -/
theorem claim_C6_amended :
    ∀ (st : SornSet) (op : Op), op = Op.add ∨ op = Op.mul →
      sornSetEq st st = true → NoPminf st → Coherent st op →
      ∀ i j : ℕ, i < st.sets.length → j < st.sets.length →
        Sorn.cellOf (Sorn.gen_table st op) i j =
          (Sorn.checked_op st (1 <<< i) st (1 <<< j) op).2.2 := by
  intro st op hop hg hnp hcoh i j hi hj
  rw [checked_op_transparent hg hcoh]
  show ((((Sorn.gen_pairs st.sets.length).foldl (Sorn.gen_step op)
      (st, List.replicate st.sets.length (List.replicate st.sets.length 0))).2).getD
        i []).getD j 0 = Sorn.rawOpBits st op (1 <<< i) (1 <<< j)
  rw [gen_loop_cells hop st hg hnp (Sorn.gen_pairs st.sets.length) st
    (List.replicate st.sets.length (List.replicate st.sets.length 0)) rfl rfl hcoh
    (fun p hp => mem_gen_pairs.mp hp)
    (List.length_replicate _ _)
    (fun row hr => by rw [List.eq_of_mem_replicate hr]; exact List.length_replicate _ _)
    i j]
  rw [if_pos (mem_gen_pairs.mpr ⟨hj, hi⟩)]
  exact (rawOpBits_comm hop st _ _)

/-- Witness for C6's amended claim: cell `(1, 2)` (1-indexed `(1+1, 0+1)`)
of the S1 grid's add table equals `add(unit_0, unit_1).bits`. -/
theorem claim_C6_witness :
    Sorn.cellOf (Sorn.gen_table gridPos Op.add) 0 1 =
      (Sorn.checked_op gridPos 1 gridPos 2 Op.add).2.2 :=
  claim_C6_amended gridPos Op.add (Or.inl rfl) (by decide)
    (by unfold NoPminf; decide) coherent_gridPos_add 0 1 (by decide) (by decide)

/-- C7: for `add` and `mul`, the result bits of `a op b` and `b op a`
coincide on any partition whose memo table for the operation is symmetric
(both orientations of a key agree — every insertion writes both) and whose
cached values are in range.  This holds for the empty table and is
preserved by the operations themselves. -/
theorem claim_C7 :
    ∀ (st : SornSet) (op : Op) (a b : ℕ),
      op = Op.add ∨ op = Op.mul →
      sornSetEq st st = true →
      TableSym st op → TableInRange st op →
      (Sorn.checked_op st a st b op).2.2 = (Sorn.checked_op st b st a op).2.2 :=
  fun _ op a b hop hg hsym hran => checked_op_commutes hop hg hsym hran a b

/-- Witness for C7 on the S1 grid with empty tables. -/
theorem claim_C7_witness :
    (Sorn.checked_op gridPos 1 gridPos 2 Op.add).2.2 =
      (Sorn.checked_op gridPos 2 gridPos 1 Op.add).2.2 :=
  claim_C7 gridPos Op.add 1 2 (Or.inl rfl) (by decide)
    (fun x y => rfl)
    (fun x y r h => by
      rw [show lookupMemo gridPos Op.add (x, y) = none from rfl] at h
      cases h)

/-- C8 counterexample: on the positive-only grid `[Exact 0, Open (0,1),
Exact 1]` the carrier `Open (0,1)` (bits `0b010`) contains no sentinel,
yet `-(-a)` has bits `0`, not `0b010`: negation maps every element outside
the partition, so the double negation collapses to the empty mask. -/
theorem claim_C8_counterexample :
    Sorn.contains gridPos 2 SornValue.PlusMinusInf = false ∧
    Sorn.negate gridPos (Sorn.negate gridPos 2) = 0 ∧
    (0 : ℕ) ≠ 2 := by
  refine ⟨by decide, by decide, by decide⟩

/-- C8 as amended: `-(-a) == a` holds when `a` contains no `PlusMinusInf`
and the partition is closed under negation — negating element `k` yields
element `n−1−k` — with each element classifying back to exactly its own
bit (true of the symmetric grids); on an asymmetric partition the law
fails (see the counterexample). -/
theorem claim_C8_amended :
    ∀ (st : SornSet) (m : ℕ),
      Sorn.contains st m SornValue.PlusMinusInf = false →
      (∀ k < st.sets.length,
        Sorn.negate_val (st.sets.getD k SornValue.Empty) =
          st.sets.getD (st.sets.length - 1 - k) SornValue.Empty) →
      (∀ k < st.sets.length,
        Sorn.sorn_to_bits st (st.sets.getD k SornValue.Empty) = 1 <<< k) →
      m < 2 ^ st.sets.length →
      Sorn.negate st (Sorn.negate st m) = m :=
  fun _ _ _ H1 H2 hm => negate_negate_of_mirror H1 H2 hm

/-- Witness for C8's amended claim on the symmetric grid
`[Exact (-1), Open (-1,0), Exact 0, Open (0,1), Exact 1]`. -/
theorem claim_C8_witness :
    Sorn.negate gridSym (Sorn.negate gridSym 11) = 11 :=
  claim_C8_amended gridSym 11 (by decide) (by decide) (by decide) (by decide)

/-- C9: the pow memo table is keyed by the input mask only, not the
exponent: a cached mask `r` for input mask `m` is returned by `pow(j)` for
every exponent `j`, and after any `pow(k)` call on mask `m` every later
`pow(j)` on `m` (any `j`, including `j ≠ k`) returns exactly the first
call's result and leaves the state unchanged. -/
theorem claim_C9 :
    (∀ (st : SornSet) (m r : ℕ) (j : ℤ),
      plookup m st.precomputed_pow = some r →
      Sorn.pow st m j = (Sorn.setBitsN st.sets.length 0 r, st)) ∧
    (∀ (st : SornSet) (m : ℕ) (k j : ℤ),
      Sorn.pow (Sorn.pow st m k).2 m j = Sorn.pow st m k) := by
  constructor
  · intro st m r j h
    unfold Sorn.pow
    rw [h]
  · intro st m k j
    cases h : plookup m st.precomputed_pow with
    | some r =>
        have h1 : Sorn.pow st m k = (Sorn.setBitsN st.sets.length 0 r, st) := by
          unfold Sorn.pow
          rw [h]
        rw [h1]
        unfold Sorn.pow
        rw [h]
    | none =>
        have h1 : Sorn.pow st m k =
            (Sorn.setBitsN st.sets.length 0
                (orFold ((Sorn.get_ranges st m).map fun v =>
                  Sorn.sorn_to_bits st (Sorn.pow_val k v))),
              { st with precomputed_pow :=
                  (m, orFold ((Sorn.get_ranges st m).map fun v =>
                    Sorn.sorn_to_bits st (Sorn.pow_val k v))) :: st.precomputed_pow }) := by
          unfold Sorn.pow
          rw [h]
        rw [h1]
        unfold Sorn.pow
        simp [plookup]

/-- Witness for C9's hypothesis: after `pow(2)` on mask `0b010` of the S1
grid, the table holds the result under the mask alone, and `pow(5)` (a
different exponent) returns the memoized mask. -/
theorem claim_C9_witness :
    Sorn.pow (Sorn.pow gridPos 2 2).2 2 5 =
      (Sorn.setBitsN ((Sorn.pow gridPos 2 2).2).sets.length 0 2, (Sorn.pow gridPos 2 2).2) :=
  claim_C9.1 (Sorn.pow gridPos 2 2).2 2 2 5 (by decide)

/-- C10: a checked binary operation on two carriers of one partition never
changes the partition's `sets`, `contains_inf`, `one_bit`, or the unary
pow memo table; only the target's bits and the operation's own memo tables
can change (the operand is an immutable borrow, so its bits are untouched
by construction). -/
theorem claim_C10 :
    ∀ (st : SornSet) (a b : ℕ) (op : Op),
      ((Sorn.checked_op st a st b op).2.1).sets = st.sets ∧
      ((Sorn.checked_op st a st b op).2.1).contains_inf = st.contains_inf ∧
      ((Sorn.checked_op st a st b op).2.1).one_bit = st.one_bit ∧
      ((Sorn.checked_op st a st b op).2.1).precomputed_pow = st.precomputed_pow :=
  fun st a b op => checked_op_frame st a st b op

/-! Constructor-produced partitions: empty memo tables, no sentinel
element.  These discharge the amended claims' hypotheses for every grid
partition, not only the concrete witnesses. -/

theorem overlapCond_pminf_left (item : SornValue) :
    Sorn.overlapCond SornValue.PlusMinusInf item = false := by
  cases item <;> rfl

theorem stbAux_pminf {cinf : Bool} :
    ∀ (l : List SornValue) (i : ℕ), (∀ x ∈ l, x.is_pminf = false) →
      Sorn.stbAux cinf SornValue.PlusMinusInf i l = 0 := by
  intro l
  induction l with
  | nil => intro i _; rfl
  | cons x xs ih =>
      intro i h
      have hx : x.is_pminf = false := h x (by simp)
      simp only [Sorn.stbAux, overlapCond_pminf_left, hx, if_false, Bool.false_and,
        Bool.and_false]
      rw [ih (i + 1) fun y hy => h y (by simp [hy])]
      simp

/-- On a sentinel-free partition the classifier maps `PlusMinusInf` to the
zero mask (no bit, in particular not bit 0, is ever set). -/
theorem sorn_to_bits_pminf {st : SornSet} (hnp : NoPminf st) :
    Sorn.sorn_to_bits st SornValue.PlusMinusInf = 0 :=
  stbAux_pminf st.sets 0 hnp

theorem push_no_pminf {st : SornSet} {v : SornValue} (hst : NoPminf st)
    (hv : v.is_pminf = false) : NoPminf (SornSet.push st v) := by
  intro x hx
  rcases List.mem_append.mp hx with h | h
  · exact hst x h
  · rw [List.mem_singleton.mp h]
    exact hv

theorem push_tables (st : SornSet) (v : SornValue) :
    (SornSet.push st v).precomputed_add = st.precomputed_add ∧
    (SornSet.push st v).precomputed_sub = st.precomputed_sub ∧
    (SornSet.push st v).precomputed_mul = st.precomputed_mul ∧
    (SornSet.push st v).precomputed_div = st.precomputed_div ∧
    (SornSet.push st v).precomputed_pow = st.precomputed_pow :=
  ⟨rfl, rfl, rfl, rfl, rfl⟩

/-- The grid-loop accumulator of `SornSet::new` preserves sentinel-freedom
and the emptiness of the memo tables. -/
theorem grid_fold_invariant (step start : ℚ) :
    ∀ (l : List ℕ) (acc : SornSet),
      NoPminf acc → acc.precomputed_add = [] → acc.precomputed_sub = [] →
      acc.precomputed_mul = [] → acc.precomputed_div = [] →
      acc.precomputed_pow = [] →
      NoPminf (l.foldl
        (fun acc (i : ℕ) =>
          SornSet.push
            (SornSet.push acc (SornValue.Exact (XR.fin ((i : ℚ) * step + start))))
            (SornValue.Open (XR.fin ((i : ℚ) * step + start),
              XR.fin (((i : ℚ) * step + start) + step)))) acc) ∧
      (l.foldl
        (fun acc (i : ℕ) =>
          SornSet.push
            (SornSet.push acc (SornValue.Exact (XR.fin ((i : ℚ) * step + start))))
            (SornValue.Open (XR.fin ((i : ℚ) * step + start),
              XR.fin (((i : ℚ) * step + start) + step)))) acc).precomputed_add = [] ∧
      (l.foldl
        (fun acc (i : ℕ) =>
          SornSet.push
            (SornSet.push acc (SornValue.Exact (XR.fin ((i : ℚ) * step + start))))
            (SornValue.Open (XR.fin ((i : ℚ) * step + start),
              XR.fin (((i : ℚ) * step + start) + step)))) acc).precomputed_sub = [] ∧
      (l.foldl
        (fun acc (i : ℕ) =>
          SornSet.push
            (SornSet.push acc (SornValue.Exact (XR.fin ((i : ℚ) * step + start))))
            (SornValue.Open (XR.fin ((i : ℚ) * step + start),
              XR.fin (((i : ℚ) * step + start) + step)))) acc).precomputed_mul = [] ∧
      (l.foldl
        (fun acc (i : ℕ) =>
          SornSet.push
            (SornSet.push acc (SornValue.Exact (XR.fin ((i : ℚ) * step + start))))
            (SornValue.Open (XR.fin ((i : ℚ) * step + start),
              XR.fin (((i : ℚ) * step + start) + step)))) acc).precomputed_div = [] ∧
      (l.foldl
        (fun acc (i : ℕ) =>
          SornSet.push
            (SornSet.push acc (SornValue.Exact (XR.fin ((i : ℚ) * step + start))))
            (SornValue.Open (XR.fin ((i : ℚ) * step + start),
              XR.fin (((i : ℚ) * step + start) + step)))) acc).precomputed_pow = [] := by
  intro l
  induction l with
  | nil => intro acc h1 h2 h3 h4 h5 h6; exact ⟨h1, h2, h3, h4, h5, h6⟩
  | cons x xs ih =>
      intro acc h1 h2 h3 h4 h5 h6
      apply ih
      · exact push_no_pminf (push_no_pminf h1 rfl) rfl
      all_goals simpa [SornSet.push]

/-- Every grid partition is sentinel-free and has empty memo tables: the
hypotheses of the amended C4/C6/C7 statements hold for every partition
`SornSet::new` produces. -/
theorem new_invariants (start e step : ℚ) (has_inf : Bool) :
    NoPminf (SornSet.new start e step has_inf) ∧
    ∀ op : Op, ∀ k : ℕ × ℕ,
      lookupMemo (SornSet.new start e step has_inf) op k = none := by
  have main : ∀ b0 : SornSet, NoPminf b0 →
      b0.precomputed_add = [] → b0.precomputed_sub = [] →
      b0.precomputed_mul = [] → b0.precomputed_div = [] →
      b0.precomputed_pow = [] →
      ∀ v2 : SornValue, v2.is_pminf = false →
      NoPminf (SornSet.push
        ((List.range (⌊(e - start) / step⌋).toNat).foldl
          (fun acc (i : ℕ) =>
            SornSet.push
              (SornSet.push acc (SornValue.Exact (XR.fin ((i : ℚ) * step + start))))
              (SornValue.Open (XR.fin ((i : ℚ) * step + start),
                XR.fin (((i : ℚ) * step + start) + step)))) b0)
        v2) ∧
      (SornSet.push
        ((List.range (⌊(e - start) / step⌋).toNat).foldl
          (fun acc (i : ℕ) =>
            SornSet.push
              (SornSet.push acc (SornValue.Exact (XR.fin ((i : ℚ) * step + start))))
              (SornValue.Open (XR.fin ((i : ℚ) * step + start),
                XR.fin (((i : ℚ) * step + start) + step)))) b0)
        v2).precomputed_add = [] ∧
      (SornSet.push
        ((List.range (⌊(e - start) / step⌋).toNat).foldl
          (fun acc (i : ℕ) =>
            SornSet.push
              (SornSet.push acc (SornValue.Exact (XR.fin ((i : ℚ) * step + start))))
              (SornValue.Open (XR.fin ((i : ℚ) * step + start),
                XR.fin (((i : ℚ) * step + start) + step)))) b0)
        v2).precomputed_sub = [] ∧
      (SornSet.push
        ((List.range (⌊(e - start) / step⌋).toNat).foldl
          (fun acc (i : ℕ) =>
            SornSet.push
              (SornSet.push acc (SornValue.Exact (XR.fin ((i : ℚ) * step + start))))
              (SornValue.Open (XR.fin ((i : ℚ) * step + start),
                XR.fin (((i : ℚ) * step + start) + step)))) b0)
        v2).precomputed_mul = [] ∧
      (SornSet.push
        ((List.range (⌊(e - start) / step⌋).toNat).foldl
          (fun acc (i : ℕ) =>
            SornSet.push
              (SornSet.push acc (SornValue.Exact (XR.fin ((i : ℚ) * step + start))))
              (SornValue.Open (XR.fin ((i : ℚ) * step + start),
                XR.fin (((i : ℚ) * step + start) + step)))) b0)
        v2).precomputed_div = [] := by
    intro b0 h1 h2 h3 h4 h5 h6 v2 hv2
    obtain ⟨g1, g2, g3, g4, g5, _⟩ :=
      grid_fold_invariant step start
        (List.range (⌊(e - start) / step⌋).toNat) b0 h1 h2 h3 h4 h5 h6
    refine ⟨push_no_pminf g1 hv2, ?_, ?_, ?_, ?_⟩
    · exact (push_tables _ _).1.trans g2
    · exact (push_tables _ _).2.1.trans g3
    · exact (push_tables _ _).2.2.1.trans g4
    · exact (push_tables _ _).2.2.2.1.trans g5
  cases has_inf with
  | false =>
      have hb : NoPminf SornSet.default := fun x hx => absurd hx (by simp [SornSet.default])
      obtain ⟨m1, m2, m3, m4, m5⟩ :=
        main SornSet.default hb rfl rfl rfl rfl rfl (SornValue.Exact (XR.fin e)) rfl
      constructor
      · intro x hx
        apply m1 x
        simpa only [SornSet.new, Bool.false_eq_true, if_false] using hx
      · intro op k
        have htab :
            (SornSet.new start e step false).precomputed_add = [] ∧
            (SornSet.new start e step false).precomputed_sub = [] ∧
            (SornSet.new start e step false).precomputed_mul = [] ∧
            (SornSet.new start e step false).precomputed_div = [] := by
          refine ⟨?_, ?_, ?_, ?_⟩ <;>
            simpa only [SornSet.new, Bool.false_eq_true, if_false] using
              (by assumption : _)
        cases op
        · rw [show lookupMemo (SornSet.new start e step false) Op.add k =
            alookup k (SornSet.new start e step false).precomputed_add from rfl, htab.1]
          rfl
        · rw [show lookupMemo (SornSet.new start e step false) Op.sub k =
            alookup k (SornSet.new start e step false).precomputed_sub from rfl, htab.2.1]
          rfl
        · rw [show lookupMemo (SornSet.new start e step false) Op.mul k =
            alookup k (SornSet.new start e step false).precomputed_mul from rfl, htab.2.2.1]
          rfl
        · rw [show lookupMemo (SornSet.new start e step false) Op.div k =
            alookup k (SornSet.new start e step false).precomputed_div from rfl, htab.2.2.2]
          rfl
  | true =>
      have hb : NoPminf (SornSet.push { SornSet.default with contains_inf := true }
          (SornValue.Open (XR.negInf, XR.fin start))) :=
        push_no_pminf (fun x hx => absurd hx (by simp [SornSet.default])) rfl
      obtain ⟨m1, m2, m3, m4, m5⟩ :=
        main (SornSet.push { SornSet.default with contains_inf := true }
          (SornValue.Open (XR.negInf, XR.fin start))) hb rfl rfl rfl rfl rfl
          (SornValue.Exact (XR.fin e)) rfl
      constructor
      · intro x hx
        apply @push_no_pminf _ (SornValue.Open (XR.fin e, XR.posInf)) m1 rfl x
        simpa only [SornSet.new, if_true] using hx
      · intro op k
        have htab :
            (SornSet.new start e step true).precomputed_add = [] ∧
            (SornSet.new start e step true).precomputed_sub = [] ∧
            (SornSet.new start e step true).precomputed_mul = [] ∧
            (SornSet.new start e step true).precomputed_div = [] := by
          refine ⟨?_, ?_, ?_, ?_⟩ <;>
            simpa only [SornSet.new, if_true, SornSet.push] using
              (by assumption : _)
        cases op
        · rw [show lookupMemo (SornSet.new start e step true) Op.add k =
            alookup k (SornSet.new start e step true).precomputed_add from rfl, htab.1]
          rfl
        · rw [show lookupMemo (SornSet.new start e step true) Op.sub k =
            alookup k (SornSet.new start e step true).precomputed_sub from rfl, htab.2.1]
          rfl
        · rw [show lookupMemo (SornSet.new start e step true) Op.mul k =
            alookup k (SornSet.new start e step true).precomputed_mul from rfl, htab.2.2.1]
          rfl
        · rw [show lookupMemo (SornSet.new start e step true) Op.div k =
            alookup k (SornSet.new start e step true).precomputed_div from rfl, htab.2.2.2]
          rfl

/-- Grid partitions classify the sentinel to the zero mask (the universal
form of the C5 observation: bit 0 is never set). -/
theorem new_sorn_to_bits_pminf (start e step : ℚ) (has_inf : Bool) :
    Sorn.sorn_to_bits (SornSet.new start e step has_inf) SornValue.PlusMinusInf = 0 :=
  sorn_to_bits_pminf (new_invariants start e step has_inf).1

/-- Grid partitions satisfy the memo-table hypotheses of the amended
C4/C6/C7 theorems. -/
theorem new_table_invariants (start e step : ℚ) (has_inf : Bool) (op : Op) :
    Coherent (SornSet.new start e step has_inf) op ∧
    TableSym (SornSet.new start e step has_inf) op ∧
    TableInRange (SornSet.new start e step has_inf) op := by
  have h := (new_invariants start e step has_inf).2 op
  refine ⟨?_, ?_, ?_⟩
  · intro x y r hr
    rw [h (x, y)] at hr
    cases hr
  · intro x y
    rw [h (x, y), h (y, x)]
  · intro x y r hr
    rw [h (x, y)] at hr
    cases hr

/-- A single checked operation preserves table symmetry and
range-boundedness of every operation's memo table, so the hypotheses of
the C7 commutativity theorem hold in every state reachable from a fresh
partition. -/
theorem checked_op_preserves_sym_ran (st : SornSet) (a : ℕ) (o : SornSet)
    (b : ℕ) (op op2 : Op)
    (hsym : TableSym st op2) (hran : TableInRange st op2) :
    TableSym (Sorn.checked_op st a o b op).2.1 op2 ∧
    TableInRange (Sorn.checked_op st a o b op).2.1 op2 := by
  by_cases hg : sornSetEq st o = true
  · cases hm : lookupMemo st op (a, b) with
    | some r =>
        rw [checked_op_hit hg hm]
        exact ⟨hsym, hran⟩
    | none =>
        rw [checked_op_miss hg hm]
        by_cases hsame : op2 = op
        · subst hsame
          constructor
          · intro x y
            rw [lookup_insert, lookup_insert, lookup_insert, lookup_insert]
            by_cases h1 : (x, y) = (b, Sorn.infBits st a o b)
            · rw [if_pos h1]
              by_cases h1r : (y, x) = (b, Sorn.infBits st a o b)
              · rw [if_pos h1r]
              · rw [if_neg h1r, if_pos (by
                  rw [Prod.mk.injEq] at h1 ⊢
                  exact ⟨h1.2, h1.1⟩)]
            · rw [if_neg h1]
              by_cases h2 : (x, y) = (Sorn.infBits st a o b, b)
              · rw [if_pos h2]
                rw [if_pos (by
                  rw [Prod.mk.injEq] at h2 ⊢
                  exact ⟨h2.2, h2.1⟩)]
              · rw [if_neg h2,
                  if_neg (by
                    intro hc
                    rw [Prod.mk.injEq] at hc h2
                    exact h2 ⟨hc.2, hc.1⟩),
                  if_neg (by
                    intro hc
                    rw [Prod.mk.injEq] at hc h1
                    exact h1 ⟨hc.2, hc.1⟩)]
                exact hsym x y
          · intro x y r hr
            rw [insertMemo_sets, insertMemo_sets]
            rw [lookup_insert, lookup_insert] at hr
            by_cases h1 : (x, y) = (b, Sorn.infBits st a o b)
            · rw [if_pos h1] at hr
              injection hr with hr
              rw [← hr]
              exact crossUnion_lt st op2 _ _
            · rw [if_neg h1] at hr
              by_cases h2 : (x, y) = (Sorn.infBits st a o b, b)
              · rw [if_pos h2] at hr
                injection hr with hr
                rw [← hr]
                exact crossUnion_lt st op2 _ _
              · rw [if_neg h2] at hr
                exact hran x y r hr
        · have hlook : ∀ k2 : ℕ × ℕ,
              lookupMemo (insertMemo (insertMemo st op
                  (Sorn.infBits st a o b, b) (Sorn.crossResult st a o b op)) op
                  (b, Sorn.infBits st a o b) (Sorn.crossResult st a o b op)) op2 k2 =
                lookupMemo st op2 k2 := by
            intro k2
            cases op <;> cases op2 <;> simp_all [insertMemo, lookupMemo]
          constructor
          · intro x y
            rw [hlook (x, y), hlook (y, x)]
            exact hsym x y
          · intro x y r hr
            rw [hlook (x, y)] at hr
            rw [insertMemo_sets, insertMemo_sets]
            exact hran x y r hr
  · rw [checked_op_guard a b op (by
      cases hb : sornSetEq st o with
      | true => exact absurd hb hg
      | false => rfl)]
    exact ⟨hsym, hran⟩
